import Mathlib

/-!
Shallow embedding of the kanata-lsp language server core
(src/kanata-lsp/src/main.rs) for checking its natural-language
specification.

Modelling conventions:
* Document text is a `List Char` (the full file contents); lines are
  recovered by `rustLines`, a faithful model of Rust `str::lines`
  (split at `'\n'`, strip one `'\r'` before each split point, drop a
  final empty segment).
* Rust mixes byte offsets (`str::len`, slicing) with character indices
  (`chars().nth`).  `get_word_at_position` — where that mixing can
  panic — is modelled byte-accurately via `utf8Len` / `byteSlice`,
  with `none` standing for a Rust panic.  The reference/rename scans
  are modelled on the character sequence; byte offsets and character
  indices coincide there for single-byte (ASCII) text.
* `char::is_alphanumeric` / `char::is_whitespace` are Unicode
  predicates in Rust; they are modelled by `Char.isAlphanum` /
  `Char.isWhitespace`, which agree with them on the ASCII range.
* `usize as u32` casts at LSP `Position` construction sites are kept
  as `u32cast` (reduction modulo 2^32).
* `item.graphemes(true).count()` (unicode-segmentation) is modelled by
  `graphemeCount = List.length`, which agrees with it whenever no
  grapheme cluster spans several code points.
* The external validator (`kanata_parser::cfg::new_from_file`) and the
  scratch-file write are opaque collaborators; `validate_document`
  takes their outcomes as `Except` parameters.
-/

/-- Reduction modulo 2^32; models Rust `usize as u32` casts. -/
def u32cast (n : Nat) : Nat := n % 4294967296

/-- UTF-8 byte length of a character sequence; models Rust `str::len`. -/
def utf8Len (s : List Char) : Nat := List.foldl (fun n c => n + c.utf8Size) 0 s

/-- LSP position: 0-based line and character. -/
structure Pos where
  line : Nat
  character : Nat
deriving DecidableEq, Repr

/-- LSP range with inclusive start and exclusive stop position
(`stop` is the Rust field `end`, a Lean keyword). -/
structure Rng where
  start : Pos
  stop : Pos
deriving DecidableEq, Repr

/-- Builds a range applying the `as u32` casts performed at every LSP
`Position` construction site in the source. -/
def mkRangeU32 (l1 c1 l2 c2 : Nat) : Rng :=
  ⟨⟨u32cast l1, u32cast c1⟩, ⟨u32cast l2, u32cast c2⟩⟩

/-- An LSP location; documents are identified by a numeric id standing
for the `Url`. -/
structure Location where
  uri : Nat
  range : Rng
deriving DecidableEq, Repr

/-- A single text substitution of an LSP `WorkspaceEdit`. -/
structure TextEdit where
  range : Rng
  newText : List Char
deriving DecidableEq, Repr

/-- A workspace edit: per-document groups of text edits (the `changes`
hash map, modelled as an association list in insertion order). -/
structure WorkspaceEdit where
  changes : List (Nat × List TextEdit)
deriving DecidableEq, Repr

/-- A published diagnostic (range and message; severity and source are
constants in the source and carry no information). -/
structure Diagnostic where
  range : Rng
  message : List Char
deriving DecidableEq, Repr

/-- Per-document symbol index: alias and layer names mapped to their
declared range (the `Definition` struct minus the redundant `uri`). -/
structure DocumentSymbols where
  aliases : List (List Char × Rng)
  layers : List (List Char × Rng)
deriving DecidableEq, Repr

/-- `HashMap::insert`: overwrite any previous binding of the key. -/
def upsert {κ α : Type} [DecidableEq κ] (m : List (κ × α)) (k : κ) (v : α) :
    List (κ × α) :=
  (k, v) :: m.filter (fun p => ¬ p.1 = k)

/-- `HashMap::get`. -/
def alookup {κ α : Type} [DecidableEq κ] (m : List (κ × α)) (k : κ) : Option α :=
  (m.find? (fun p => p.1 = k)).map (fun p => p.2)

/-- Splits a character sequence at every occurrence of `c`
(Rust `str::split(c)`): always at least one (possibly empty) segment. -/
def splitOnChar (c : Char) : List Char → List (List Char)
  | [] => [[]]
  | x :: xs =>
    let r := splitOnChar c xs
    if x = c then [] :: r
    else
      match r with
      | [] => [[x]]
      | h :: t => (x :: h) :: t

/-- Removes one trailing `'\r'` if present (the carriage-return part of
a `"\r\n"` line ending). -/
def stripCRend (l : List Char) : List Char :=
  match l.getLast? with
  | some x => if x = '\r' then l.dropLast else l
  | none => l

/-- Helper of `rustLines`: strips `'\r'` on every segment that was
followed by a newline and drops a final empty segment. -/
def rustLinesAux : List (List Char) → List (List Char)
  | [] => []
  | [last] => if last = [] then [] else [last]
  | p :: ps => stripCRend p :: rustLinesAux ps

/-- Model of Rust `str::lines`. -/
def rustLines (t : List Char) : List (List Char) :=
  rustLinesAux (splitOnChar '\n' t)

/-- `str::trim_start` (whitespace from the left). -/
def trimStartWs (s : List Char) : List Char := s.dropWhile Char.isWhitespace

/-- `str::trim` (whitespace from both ends). -/
def trimWs (s : List Char) : List Char :=
  ((trimStartWs s).reverse.dropWhile Char.isWhitespace).reverse

/-- Fuelled worker for `trimStartMatches`. -/
def trimStartMatchesGo (p : List Char) : Nat → List Char → List Char
  | 0, s => s
  | fuel + 1, s =>
    if ¬ p = [] ∧ p.isPrefixOf s then trimStartMatchesGo p fuel (s.drop p.length)
    else s

/-- `str::trim_start_matches(pat)`: repeatedly strips the prefix `p`.
Each strip removes `p.length ≥ 1` characters, so fuel `s.length + 1`
always suffices; with an empty pattern the input is returned. -/
def trimStartMatches (p s : List Char) : List Char :=
  trimStartMatchesGo p (s.length + 1) s

/-- `str::find` of a character predicate: index of the first character
satisfying `p`. -/
def findCharP (p : Char → Bool) : List Char → Option Nat
  | [] => none
  | c :: cs => if p c then some 0 else (findCharP p cs).map (fun i => i + 1)

/-- `str::find` of a substring: position of its first occurrence. -/
def findSub (pat : List Char) : List Char → Option Nat
  | [] => if pat.isPrefixOf ([] : List Char) then some 0 else none
  | c :: cs =>
    if pat.isPrefixOf (c :: cs) then some 0
    else (findSub pat cs).map (fun i => i + 1)

/-- `str::contains` of a substring. -/
def containsSub (pat s : List Char) : Bool := (findSub pat s).isSome

/-- Rust `u32::from_str`: optional leading `'+'`, a nonempty digit
string, value below 2^32. -/
def parseU32 (s : List Char) : Option Nat :=
  let s2 := match s with
    | '+' :: r => r
    | _ => s
  if ¬ s2 = [] ∧ s2.all Char.isDigit then
    let v := List.foldl (fun a c => a * 10 + (c.toNat - 48)) 0 s2
    if v < 4294967296 then some v else none
  else none

/-- Models the grapheme-cluster count `s.graphemes(true).count()`;
agrees with it whenever no cluster spans several code points. -/
def graphemeCount (s : List Char) : Nat := s.length

/-- `" ".repeat(n)`. -/
def spaces (n : Nat) : List Char := List.replicate n ' '

/-- `Vec<String>::join("\n")`. -/
def intercalateNL : List (List Char) → List Char
  | [] => []
  | [x] => x
  | x :: xs => x ++ '\n' :: intercalateNL xs

/-! ## Position resolver (`get_word_at_position`, main.rs 622-658) -/

/-- The leftward word-character class: alphanumeric, `'_'`, `'-'` and
the alias sigil `'@'`. -/
def isWordCharL (c : Char) : Bool := c.isAlphanum || c = '_' || c = '-' || c = '@'

/-- The rightward word-character class: alphanumeric, `'_'`, `'-'`. -/
def isWordCharR (c : Char) : Bool := c.isAlphanum || c = '_' || c = '-'

/-- The `while start > 0` loop: walks left from `start` while the
character before the cursor is in the left class.  `none` models the
panic of `line.chars().nth(start - 1).unwrap()` when the character
index is out of range (possible because the loop bound is the byte
length). -/
def scanLeft (line : List Char) : Nat → Option Nat
  | 0 => some 0
  | s + 1 =>
    match line.get? s with
    | none => none
    | some c => if isWordCharL c then scanLeft line s else some (s + 1)

/-- The `while end < line.len()` loop (`byteLen` is `line.len()`, a
byte count, while `line.get?` is the character indexing of
`chars().nth`).  `none` models the `.unwrap()` panic.  Each iteration
increases `e` and only runs while `e < byteLen`, so fuel `byteLen`
always suffices. -/
def scanRightGo (line : List Char) (byteLen : Nat) : Nat → Nat → Option Nat
  | fuel, e =>
    if e < byteLen then
      match fuel with
      | 0 => none
      | f + 1 =>
        match line.get? e with
        | none => none
        | some c => if isWordCharR c then scanRightGo line byteLen f (e + 1) else some e
    else some e

/-- Drops `n` bytes from the front; `none` if `n` overruns the string
or falls strictly inside a multi-byte character (a Rust slice panic). -/
def byteDrop : List Char → Nat → Option (List Char)
  | l, 0 => some l
  | [], _ + 1 => none
  | c :: cs, n + 1 =>
    if c.utf8Size ≤ n + 1 then byteDrop cs (n + 1 - c.utf8Size) else none

/-- Takes `n` bytes from the front; `none` on a char-boundary or
bounds violation. -/
def byteTake : List Char → Nat → Option (List Char)
  | _, 0 => some []
  | [], _ + 1 => none
  | c :: cs, n + 1 =>
    if c.utf8Size ≤ n + 1 then (byteTake cs (n + 1 - c.utf8Size)).map (fun r => c :: r)
    else none

/-- Rust byte slicing `&line[a..b]`; `none` models the slice panic. -/
def byteSlice (line : List Char) (a b : Nat) : Option (List Char) :=
  if a ≤ b then (byteDrop line a).bind (fun r => byteTake r (b - a)) else none

/-- main.rs 622-658.  Returns `some word` on normal completion and
`none` when the Rust function panics (possible on multi-byte text). -/
def get_word_at_position (text : List Char) (pos : Pos) : Option (List Char) :=
  let lines := rustLines text
  match lines.get? pos.line with
  | none => some []
  | some line =>
    let byteLen := utf8Len line
    if pos.character ≥ byteLen then some []
    else
      match scanLeft line pos.character with
      | none => none
      | some start =>
        match scanRightGo line byteLen byteLen pos.character with
        | none => none
        | some e => byteSlice line start e

/-! ## Symbol extractor (`extract_symbols`, main.rs 660-800) -/

def kwAlias : List Char := "(defalias".data

def kwLayer : List Char := "(deflayer".data

/-- Index of the first whitespace / paren delimiter (the `name_end`
computation), or the length when there is none. -/
def nameEndIdx (s : List Char) : Nat :=
  match findCharP (fun c => c.isWhitespace || c = '(' || c = ')') s with
  | some i => i
  | none => s.length

/-- The same-line condition
`!after.is_empty() && !after.starts_with('(') && !after.starts_with(')')`. -/
def sameLineCond (after : List Char) : Bool :=
  ¬ after = [] ∧ ¬ after.head? = some '(' ∧ ¬ after.head? = some ')'

/-- The forward scan for a declaration name on later lines
(main.rs 697-732 / 759-794): skips blank and `;`-comment lines, stops
with `none` at a line starting with `')'`, otherwise takes the first
token of the line; an empty token (a `'('` line) is skipped and the
scan continues.  Returns the name, its absolute line index and its
indent (byte column). -/
def scanAheadName : List (List Char) → Nat → Option (List Char × Nat × Nat)
  | [], _ => none
  | l :: ls, idx =>
    let t := trimStartWs l
    let ind := utf8Len l - utf8Len t
    if t = [] then scanAheadName ls (idx + 1)
    else if t.head? = some ';' then scanAheadName ls (idx + 1)
    else if t.head? = some ')' then none
    else
      let nm := t.take (nameEndIdx t)
      if ¬ nm = [] then some (nm, idx, ind) else scanAheadName ls (idx + 1)

/-- Handles one `(defalias`/`(deflayer` line: yields the recorded
`(name, range)` entry, if any.  `kw` is the matched keyword (both have
byte length 9).  For the same-line case the column is
`indent + 9 + (after_keyword.as_ptr() - stripped.as_ptr())`, i.e. the
bytes of whitespace trimmed from the stripped remainder. -/
def declEntry (kw : List Char) (line : List Char) (idx : Nat)
    (rest : List (List Char)) : Option (List Char × Rng) :=
  let t := trimStartWs line
  let indent := utf8Len line - utf8Len t
  let stripped := trimStartMatches kw t
  let after := trimStartWs stripped
  if sameLineCond after then
    let nm := after.take (nameEndIdx after)
    let nameCol := indent + 9 + (utf8Len stripped - utf8Len after)
    some (nm, mkRangeU32 idx nameCol idx (nameCol + utf8Len nm))
  else
    match scanAheadName rest (idx + 1) with
    | some (nm, aline, ind) =>
      some (nm, mkRangeU32 aline ind aline (ind + utf8Len nm))
    | none => none

/-- The line loop of `extract_symbols`. -/
def extractGo : List (List Char) → Nat → DocumentSymbols → DocumentSymbols
  | [], _, acc => acc
  | line :: rest, idx, acc =>
    let t := trimStartWs line
    if kwAlias.isPrefixOf t then
      match declEntry kwAlias line idx rest with
      | some (nm, r) =>
        extractGo rest (idx + 1) { acc with aliases := upsert acc.aliases nm r }
      | none => extractGo rest (idx + 1) acc
    else if kwLayer.isPrefixOf t then
      match declEntry kwLayer line idx rest with
      | some (nm, r) =>
        extractGo rest (idx + 1) { acc with layers := upsert acc.layers nm r }
      | none => extractGo rest (idx + 1) acc
    else extractGo rest (idx + 1) acc

/-- main.rs 660-800. -/
def extract_symbols (text : List Char) : DocumentSymbols :=
  extractGo (rustLines text) 0 ⟨[], []⟩

/-! ## Go-to-definition (`goto_definition`, main.rs 80-130) -/

/-- main.rs 80-130.  The symbol cache is modelled by running the
extractor on the same text.  Outer `none` models a panic inside the
position resolver; `some none` is the handler's `Ok(None)`. -/
def goto_definition (text : List Char) (pos : Pos) : Option (Option Rng) :=
  match get_word_at_position text pos with
  | none => none
  | some word =>
    if word = [] then some none
    else
      let syms := extract_symbols text
      if word.head? = some '@' then some (alookup syms.aliases (word.drop 1))
      else some (alookup syms.layers word)

/-! ## Reference search (`references`, main.rs 132-231) -/

/-- One step of the alias scan: `line[start..].find(pattern)` with the
next search starting one character past the match.  Each iteration
advances `start` by at least one, so fuel `line.length + 1` suffices. -/
def aliasScanGo (line pat : List Char) : Nat → Nat → List Nat
  | 0, _ => []
  | fuel + 1, start =>
    match findSub pat (line.drop start) with
    | none => []
    | some p => (start + p) :: aliasScanGo line pat fuel (start + p + 1)

/-- The alias occurrence scan of one line (main.rs 171-191). -/
def aliasScanLine (line pat : List Char) : List Nat :=
  aliasScanGo line pat (line.length + 1) 0

/-- The word-boundary test of the layer scan at byte offset `b`
(main.rs 199-201).  The source mixes index spaces: `b` (from
`char_indices`) and `b + search_word.len()` are byte offsets, but
`chars().nth` counts characters.  `before_ok` unwraps
`chars().nth(b - 1)` and panics (`none`) when no such character
exists; `after_ok` turns a missing character into a boundary via
`unwrap_or(false)`. -/
def layerBoundaryOk (line name : List Char) (b : Nat) : Option Bool :=
  match (if b = 0 then some true
         else match line.get? (b - 1) with
              | some c => some (! c.isAlphanum)
              | none => none) with
  | none => none
  | some bef =>
    some (bef &&
      (decide (b + utf8Len name ≥ utf8Len line) ||
        ! (match line.get? (b + utf8Len name) with
           | some c => c.isAlphanum
           | none => false)))

/-- The layer occurrence scan of one line (main.rs 195-218):
`char_indices()` walks the characters with their byte offsets `b`, the
remaining slice `&line[b..]` is tested with `starts_with` (on
boundary-aligned well-formed UTF-8 a byte prefix is a character
prefix), and matching byte offsets passing the boundary test are
collected; a `before_ok` panic aborts (`none`). -/
def layerScanGo (line name : List Char) : List Char → Nat → Option (List Nat)
  | [], _ => some []
  | c :: cs, b =>
    if name.isPrefixOf (c :: cs) then
      match layerBoundaryOk line name b with
      | none => none
      | some true =>
        match layerScanGo line name cs (b + c.utf8Size) with
        | none => none
        | some ps => some (b :: ps)
      | some false => layerScanGo line name cs (b + c.utf8Size)
    else layerScanGo line name cs (b + c.utf8Size)

def layerScanLine (line name : List Char) : Option (List Nat) :=
  layerScanGo line name line 0

/-- The boundary test with consistent character indices.  On
single-byte lines the byte offsets of `char_indices` coincide with
character indices and the scan reduces to this test at every position
(proved in `layerScanLine_ascii`); on multi-byte lines the source
diverges from it (see `layerBoundaryOk`). -/
def layerMatchAscii (line name : List Char) (i : Nat) : Bool :=
  name.isPrefixOf (line.drop i) &&
  (decide (i = 0) ||
    (match line.get? (i - 1) with
     | some c => ! c.isAlphanum
     | none => false)) &&
  (decide (i + name.length ≥ line.length) ||
    ! (match line.get? (i + name.length) with
       | some c => c.isAlphanum
       | none => false))

/-- Enumerate lines with their indices (the `lines.iter().enumerate()`
pattern). -/
def enumFrom {α : Type} (i : Nat) : List α → List (Nat × α)
  | [] => []
  | x :: xs => (i, x) :: enumFrom (i + 1) xs

/-- Locations contributed by one line of one document; `none` models a
panic in the layer scan's boundary check. -/
def scanLineLocations (u lineIdx : Nat) (line searchWord : List Char)
    (isAlias : Bool) : Option (List Location) :=
  if isAlias then
    some ((aliasScanLine line ('@' :: searchWord)).map
      (fun p => ⟨u, mkRangeU32 lineIdx p lineIdx (p + ('@' :: searchWord).length)⟩))
  else
    match layerScanLine line searchWord with
    | none => none
    | some ps =>
      some (ps.map
        (fun p => ⟨u, mkRangeU32 lineIdx p lineIdx (p + utf8Len searchWord)⟩))

/-- Concatenates per-element scans, propagating a panic (`none`). -/
def flatMapO {α β : Type} (f : α → Option (List β)) : List α → Option (List β)
  | [] => some []
  | x :: xs =>
    match f x with
    | none => none
    | some ys =>
      match flatMapO f xs with
      | none => none
      | some zs => some (ys ++ zs)

/-- Locations contributed by one tracked document. -/
def docLocations (u : Nat) (text searchWord : List Char) (isAlias : Bool) :
    Option (List Location) :=
  flatMapO (fun p => scanLineLocations u p.1 p.2 searchWord isAlias)
    (enumFrom 0 (rustLines text))

/-- The image of the alias branch of `scanLineLocations` (total). -/
def aliasLineLocations (u lineIdx : Nat) (line sw : List Char) :
    List Location :=
  (aliasScanLine line ('@' :: sw)).map
    (fun p => ⟨u, mkRangeU32 lineIdx p lineIdx (p + ('@' :: sw).length)⟩)

/-- The image of `docLocations` for an alias search (total). -/
def aliasDocLocations (u : Nat) (text sw : List Char) : List Location :=
  (enumFrom 0 (rustLines text)).flatMap
    (fun p => aliasLineLocations u p.1 p.2 sw)

/-- The image of the layer branch of `scanLineLocations` on single-byte
lines, where the scan neither panics nor misaligns its indices. -/
def layerLineLocations (u lineIdx : Nat) (line name : List Char) :
    List Location :=
  ((List.range line.length).filter (layerMatchAscii line name)).map
    (fun p => ⟨u, mkRangeU32 lineIdx p lineIdx (p + name.length)⟩)

/-- The image of `docLocations` for a layer search over a single-byte
document. -/
def layerDocLocations (u : Nat) (text name : List Char) : List Location :=
  (enumFrom 0 (rustLines text)).flatMap
    (fun p => layerLineLocations u p.1 p.2 name)

/-- The workspace: tracked documents (the `symbols_cache` keys) with
their on-disk texts, read back by the reference scan. -/
def wsRead (ws : List (Nat × List Char)) (u : Nat) : Option (List Char) :=
  (ws.find? (fun p => p.1 = u)).map (fun p => p.2)

/-- main.rs 132-231.  Outer `none` models a panic in the position
resolver or in the layer scan, `some none` the handler's `Ok(None)`. -/
def references (ws : List (Nat × List Char)) (uri : Nat) (pos : Pos) :
    Option (Option (List Location)) :=
  match wsRead ws uri with
  | none => some none
  | some text =>
    match get_word_at_position text pos with
    | none => none
    | some word =>
      if word = [] then some none
      else
        let sw := if word.head? = some '@' then (word.drop 1, true) else (word, false)
        match flatMapO (fun p => docLocations p.1 p.2 sw.1 sw.2) ws with
        | none => none
        | some locs => if locs = [] then some none else some (some locs)

/-! ## Rename (`rename`, main.rs 233-296) -/

/-- `changes.entry(uri).or_insert_with(Vec::new).push(edit)`. -/
def groupInsert (m : List (Nat × List TextEdit)) (u : Nat) (e : TextEdit) :
    List (Nat × List TextEdit) :=
  match m with
  | [] => [(u, [e])]
  | (k, es) :: rest =>
    if k = u then (k, es ++ [e]) :: rest else (k, es) :: groupInsert rest u e

/-- main.rs 233-296. -/
def rename (ws : List (Nat × List Char)) (uri : Nat) (pos : Pos)
    (newName : List Char) : Option (Option WorkspaceEdit) :=
  match wsRead ws uri with
  | none => some none
  | some text =>
    match get_word_at_position text pos with
    | none => none
    | some word =>
      if word = [] then some none
      else
        match references ws uri pos with
        | none => none
        | some none => some none
        | some (some locs) =>
          let isAlias := word.head? = some '@'
          let changes := locs.foldl
            (fun m loc =>
              groupInsert m loc.uri
                ⟨loc.range, if isAlias then '@' :: newName else newName⟩)
            []
          some (some ⟨changes⟩)

/-- Total number of text edits of a workspace edit. -/
def totalEdits (we : WorkspaceEdit) : Nat :=
  (we.changes.map (fun p => p.2.length)).sum

/-! ## Layout formatter (main.rs 364-620) -/

def kwDefsrc : List Char := "(defsrc".data

/-- The character loop over the content of a `(defsrc` opening line
(main.rs 390-411): parens adjust the depth and are dropped, whitespace
splits items only at depth 1, a `')'` at depth 1 closes the block.
Returns (items, depth, in_defsrc). -/
def defsrcContentLoop : List Char → Nat → List Char → List (List Char) →
    (List (List Char) × Nat × Bool)
  | [], depth, cur, items =>
    ((if ¬ trimWs cur = [] then items ++ [cur] else items), depth, true)
  | c :: cs, depth, cur, items =>
    if c = '(' then defsrcContentLoop cs (depth + 1) cur items
    else if c = ')' then
      if depth = 1 then
        ((if ¬ trimWs cur = [] then items ++ [cur] else items), 0, false)
      else defsrcContentLoop cs (depth - 1) cur items
    else if c.isWhitespace ∧ depth = 1 then
      if ¬ trimWs cur = [] then defsrcContentLoop cs depth [] (items ++ [cur])
      else defsrcContentLoop cs depth cur items
    else defsrcContentLoop cs depth (cur ++ [c]) items

/-- The depth-only loop over a continuation line (main.rs 419-430). -/
def defsrcDepthLoop : List Char → Nat → (Nat × Bool)
  | [], d => (d, true)
  | c :: cs, d =>
    if c = '(' then defsrcDepthLoop cs (d + 1)
    else if c = ')' then (if d = 1 then (0, false) else defsrcDepthLoop cs (d - 1))
    else defsrcDepthLoop cs d

/-- The item loop over a continuation line (main.rs 432-454): any
`')'` closes, whitespace always splits, parens are not tracked. -/
def defsrcLineItems : List Char → List Char → List (List Char) →
    (List (List Char) × Bool)
  | [], cur, items =>
    ((if ¬ trimWs cur = [] then items ++ [cur] else items), true)
  | c :: cs, cur, items =>
    if c = ')' then ((if ¬ trimWs cur = [] then items ++ [cur] else items), false)
    else if c.isWhitespace then
      if ¬ trimWs cur = [] then defsrcLineItems cs [] (items ++ [cur])
      else defsrcLineItems cs cur items
    else defsrcLineItems cs (cur ++ [c]) items

/-- The line loop of `parse_defsrc_layout` (main.rs 375-456). -/
def parseDefsrcGo : List (List Char) → Bool → Nat → List (List Char) →
    List (List Char)
  | [], _, _, items => items
  | line :: rest, inD, depth, items =>
    let t := trimWs line
    if kwDefsrc.isPrefixOf t then
      let content := trimWs (trimStartMatches kwDefsrc t)
      if ¬ content = [] ∧ ¬ content.head? = some ')' then
        let r := defsrcContentLoop content 1 [] items
        parseDefsrcGo rest r.2.2 r.2.1 r.1
      else parseDefsrcGo rest true 1 items
    else if inD then
      let d := defsrcDepthLoop t depth
      if d.2 ∧ d.1 = 1 then
        let r := defsrcLineItems t [] items
        parseDefsrcGo rest r.2 d.1 r.1
      else parseDefsrcGo rest d.2 d.1 items
    else parseDefsrcGo rest false depth items

/-- main.rs 375-469: the defsrc layout, one singleton width vector per
item (the source wraps each grapheme count in its own `Vec`). -/
def parse_defsrc_layout (text : List Char) : Option (List (List Nat)) :=
  let items := parseDefsrcGo (rustLines text) false 0 []
  if items = [] then none
  else some (items.map (fun it => [graphemeCount it]))

/-- The character loop of the deflayer item parser (main.rs 521-544 /
556-579): parens are kept inside items, whitespace splits at depth 1,
a `')'` at depth 1 closes.  Returns (items, depth, in_deflayer). -/
def deflayerItemLoop : List Char → Nat → List Char → List (List Char) →
    (List (List Char) × Nat × Bool)
  | [], d, cur, items =>
    ((if ¬ trimWs cur = [] then items ++ [cur] else items), d, true)
  | c :: cs, d, cur, items =>
    if c = '(' then deflayerItemLoop cs (d + 1) (cur ++ [c]) items
    else if c = ')' then
      if d = 1 then ((if ¬ trimWs cur = [] then items ++ [cur] else items), 0, false)
      else deflayerItemLoop cs (d - 1) (cur ++ [c]) items
    else if c.isWhitespace ∧ d = 1 then
      if ¬ trimWs cur = [] then deflayerItemLoop cs d [] (items ++ [cur])
      else deflayerItemLoop cs d cur items
    else deflayerItemLoop cs d (cur ++ [c]) items

/-- The `while i < lines.len() && in_deflayer` loop (main.rs 552-585);
counts the lines consumed after the first. -/
def deflayerLinesLoop : List (List Char) → Nat → List (List Char) → Nat →
    (List (List Char) × Nat)
  | [], _, items, n => (items, n)
  | l :: ls, d, items, n =>
    let t := trimWs l
    let r := deflayerItemLoop t d [] items
    if r.2.2 then deflayerLinesLoop ls r.2.1 r.1 (n + 1) else (r.1, n + 1)

/-- The parsing half of `format_deflayer` (main.rs 494-585): indent,
layer name, item list and the index one past the consumed lines. -/
def parse_deflayer_block (lines : List (List Char)) (start_idx : Nat) :
    (Nat × List Char × List (List Char) × Nat) :=
  match lines.drop start_idx with
  | [] => (0, [], [], start_idx)
  | first :: others =>
    let trimmed := trimWs first
    let indent := utf8Len first - utf8Len (trimStartWs first)
    let after := trimWs (trimStartMatches kwLayer trimmed)
    let layerName := after.takeWhile (fun c => ¬ c.isWhitespace)
    let rest0 := trimWs (trimStartMatches layerName after)
    let r := deflayerItemLoop rest0 1 [] []
    if r.2.2 then
      let r2 := deflayerLinesLoop others r.2.1 r.1 0
      (indent, layerName, r2.1, start_idx + 1 + r2.2)
    else (indent, layerName, r.1, start_idx + 1)

/-- main.rs 494-620: the block rewrite.  Output is the flat string
(with embedded newlines) exactly as the Rust builds it, paired with
the next line index. -/
def format_deflayer (lines : List (List Char)) (start_idx : Nat)
    (layout : List (List Nat)) : (List Char × Nat) :=
  let pb := parse_deflayer_block lines start_idx
  let indent := pb.1
  let layerName := pb.2.1
  let items := pb.2.2.1
  let nexti := pb.2.2.2
  if ¬ items.length = layout.length then
    (intercalateNL ((lines.drop start_idx).take (nexti - start_idx)), nexti)
  else
    let headPart := spaces indent ++ "(deflayer ".data ++ layerName
    let body := (items.zip layout).foldl
      (fun acc p =>
        let iw := graphemeCount p.1
        let w := p.2.headD 0
        acc ++ '\n' :: (spaces (indent + 2) ++ p.1 ++
          (if iw < w then spaces (w - iw) else [])))
      headPart
    (body ++ '\n' :: (spaces indent ++ [')']), nexti)

/-- The line loop of `apply_defsrc_layout_to_deflayers` (main.rs
471-492).  `format_deflayer` always consumes at least one line, so
fuel `lines.length + 1` suffices. -/
def applyGo : Nat → List (List Char) → Nat → List (List Nat) →
    List (List Char)
  | 0, _, _, _ => []
  | fuel + 1, lines, i, layout =>
    match lines.get? i with
    | none => []
    | some line =>
      if kwLayer.isPrefixOf (trimWs line) then
        let r := format_deflayer lines i layout
        r.1 :: applyGo fuel lines r.2 layout
      else line :: applyGo fuel lines (i + 1) layout

/-- main.rs 471-492. -/
def apply_defsrc_layout_to_deflayers (text : List Char)
    (layout : List (List Nat)) : List Char :=
  let lines := rustLines text
  intercalateNL (applyGo (lines.length + 1) lines 0 layout)

/-- main.rs 364-373. -/
def format_document (text : List Char) : List Char :=
  match parse_defsrc_layout text with
  | none => text
  | some layout => apply_defsrc_layout_to_deflayers text layout

/-! ## Diagnostic translator (main.rs 802-851, 879-918) -/

def markerStart1 : List Char := "╭─▶".data
def markerStart2 : List Char := "│ ╭─▶".data
def markerEnd1 : List Char := "├─▶".data
def markerEnd2 : List Char := "╰──".data
def kbdPat : List Char := ".kbd:".data
def helpPat : List Char := "help:".data

/-- `line.split('│').next()` then `trim` then `parse::<u32>()`. -/
def gutterNum (line : List Char) : Option Nat :=
  parseU32 (trimWs (line.takeWhile (fun c => ¬ c = '│')))

/-- The marker scan over the report lines (main.rs 808-825): the first
start marker with a parsable gutter number wins, the last end marker
wins; `saturating_sub(1)` converts to 0-based. -/
def gutterScan : List (List Char) → Option Nat → Option Nat →
    (Option Nat × Option Nat)
  | [], sl, el => (sl, el)
  | l :: ls, sl, el =>
    let sl2 :=
      if (containsSub markerStart1 l || containsSub markerStart2 l) ∧ sl = none then
        match gutterNum l with
        | some n => some (n - 1)
        | none => sl
      else sl
    let el2 :=
      if containsSub markerEnd1 l || containsSub markerEnd2 l then
        match gutterNum l with
        | some n => some (n - 1)
        | none => el
      else el
    gutterScan ls sl2 el2

/-- main.rs 802-851: (start_line, start_col, end_line), all 0-based. -/
def extract_line_info (msg : List Char) : Nat × Nat × Nat :=
  let g := gutterScan (rustLines msg) none none
  match g.1, g.2 with
  | some s, some e => (s, 0, e)
  | _, _ =>
    match findSub kbdPat msg with
    | some s =>
      let afterKbd := msg.drop (s + 5)
      match findCharP (fun c => c = ']') afterKbd with
      | some e =>
        let coords := afterKbd.take e
        let parts := splitOnChar ':' coords
        if parts.length ≥ 2 then
          match parseU32 (parts.getD 0 []), parseU32 (parts.getD 1 []) with
          | some l, some c => (l - 1, c - 1, l - 1)
          | _, _ => (0, 0, 0)
        else (0, 0, 0)
      | none => (0, 0, 0)
    | none => (0, 0, 0)

/-- The end-column computation of the `Err` branch of
`validate_document` (main.rs 879-891): for a single-line range, the
byte length of the live source line (at least `start_col + 1`); for a
multi-line range, the byte length of the terminal line (0 if absent). -/
def end_col_for (text : List Char) (startLine startCol endLine : Nat) : Nat :=
  if startLine = endLine then
    max
      (match (rustLines text).get? startLine with
       | some l => u32cast (utf8Len l)
       | none => startCol + 1)
      (startCol + 1)
  else
    match (rustLines text).get? endLine with
    | some l => u32cast (utf8Len l)
    | none => 0

/-- The range-validity normalization (main.rs 911-918): an empty or
inverted range collapses to a one-character span at the start. -/
def normalizeRange (startLine startCol endLine endCol : Nat) : Rng :=
  if startLine > endLine ∨ (startLine = endLine ∧ startCol ≥ endCol) then
    ⟨⟨startLine, startCol⟩, ⟨startLine, startCol + 1⟩⟩
  else ⟨⟨startLine, startCol⟩, ⟨endLine, endCol⟩⟩

/-- The diagnostic range computation of the `Err` branch of
`validate_document` (main.rs 876-918). -/
def diag_range (errorMsg text : List Char) : Rng :=
  let t := extract_line_info errorMsg
  normalizeRange t.1 t.2.1 t.2.2 (end_col_for text t.1 t.2.1 t.2.2)

/-- Message extraction (main.rs 899-904): the trimmed text between the
first `help:` and the next one on the first line containing `help:`
(`split("help:").nth(1)`), else the generic fallback. -/
def help_message (errorMsg : List Char) : List Char :=
  match (rustLines errorMsg).find? (fun l => containsSub helpPat l) with
  | some l =>
    match findSub helpPat l with
    | some i =>
      let r := l.drop (i + 5)
      trimWs (match findSub helpPat r with
              | some j => r.take j
              | none => r)
    | none => "Parse error".data
  | none => "Parse error".data

/-- The diagnostics produced by one validation run (main.rs 858-965).
The scratch-file write and the external validator are opaque
collaborators passed in as outcomes. -/
def validate_diagnostics (text : List Char)
    (writeRes : Except (List Char) Unit)
    (parseRes : Except (List Char) Unit) : List Diagnostic :=
  match writeRes with
  | .error e => [⟨⟨⟨0, 0⟩, ⟨0, 0⟩⟩, "Failed to write temp file: ".data ++ e⟩]
  | .ok _ =>
    match parseRes with
    | .ok _ => []
    | .error msg => [⟨diag_range msg text, help_message msg⟩]

/-- main.rs 853-974: updates the symbol cache and the pull-diagnostics
cache and returns the published (push) diagnostic set. -/
def validate_document (symbols : List (Nat × DocumentSymbols))
    (pull : List (Nat × List Diagnostic)) (uri : Nat) (text : List Char)
    (writeRes parseRes : Except (List Char) Unit) :
    List (Nat × DocumentSymbols) × List (Nat × List Diagnostic) ×
      List Diagnostic :=
  let diags := validate_diagnostics text writeRes parseRes
  (upsert symbols uri (extract_symbols text), upsert pull uri diags, diags)

/-! ## Specification-side definitions

The following definitions are written from the wording of the
specification (not from the source); the theorems below compare the
source-derived functions against them. -/

/-- All characters are single-byte (ASCII) — the texts on which byte
offsets and character indices coincide. -/
def asciiStr (l : List Char) : Prop := ∀ c ∈ l, c.utf8Size = 1

/-- Spec 4.7: a diagnostic range that is neither empty nor inverted
(start strictly before end). -/
def validRange (r : Rng) : Prop :=
  r.start.line < r.stop.line ∨
    (r.start.line = r.stop.line ∧ r.start.character < r.stop.character)

instance (l : List Char) : Decidable (asciiStr l) := by
  unfold asciiStr
  infer_instance

instance (r : Rng) : Decidable (validRange r) := by
  unfold validRange
  infer_instance

/-- Spec 4.2: the characterization of the resolved word span `[c, e)`
around position `p` — expansion to the left over the identifier class
including `'@'` up to a boundary, and to the right over the class
excluding `'@'` up to a boundary. -/
def wordCharacterization (line : List Char) (p c e : Nat) : Prop :=
  c ≤ p ∧ p ≤ e ∧ e ≤ line.length ∧
  (∀ k, c ≤ k → k < p → ∃ ch, line.get? k = some ch ∧ isWordCharL ch = true) ∧
  (c = 0 ∨ ∃ ch, line.get? (c - 1) = some ch ∧ isWordCharL ch = false) ∧
  (∀ k, p ≤ k → k < e → ∃ ch, line.get? k = some ch ∧ isWordCharR ch = true) ∧
  (e = line.length ∨ ∃ ch, line.get? e = some ch ∧ isWordCharR ch = false)

/-- Spec 4.4 (layer occurrences): the bare name occurs at position `c`
of the line as a substring with a word boundary on both sides, where a
boundary is the start/end of the line or an adjacent character that is
not alphanumeric. -/
def wordBoundaryOccurrence (line name : List Char) (c : Nat) : Bool :=
  decide (c < line.length) &&
  name.isPrefixOf (line.drop c) &&
  (decide (c = 0) ||
    (match line.get? (c - 1) with
     | some ch => ! ch.isAlphanum
     | none => true)) &&
  (decide (c + name.length ≥ line.length) ||
    (match line.get? (c + name.length) with
     | some ch => ! ch.isAlphanum
     | none => true))

/-- Spec 4.4 (alias occurrences): every position of the line at which
the exact substring `pat` occurs, in left-to-right order (`base` is
the position of the head of `suffix` within the line). -/
def occPosFrom (pat : List Char) : List Char → Nat → List Nat
  | [], base => if pat.isPrefixOf ([] : List Char) then [base] else []
  | c :: cs, base =>
    (if pat.isPrefixOf (c :: cs) then [base] else []) ++ occPosFrom pat cs (base + 1)

/-- Number of occurrences of the exact substring `pat` in a document
(summed over its lines). -/
def doc_occurrence_count (pat text : List Char) : Nat :=
  ((rustLines text).map (fun l => (occPosFrom pat l 0).length)).sum

/-- Spec 4.6 / C3 (amended): the rewritten block — the heading with
the layer name, one item per line at the original indentation plus
two, each item left-aligned and right-padded with spaces to its
template width (items already at least as wide are emitted without
padding: the pad `w - graphemeCount item` truncates at zero), and the
closing paren at the original indentation. -/
def alignedBlockSpec (indent : Nat) (layerName : List Char)
    (items : List (List Char)) (layout : List (List Nat)) : List Char :=
  intercalateNL
    ((spaces indent ++ "(deflayer ".data ++ layerName) ::
     ((items.zip layout).map (fun p =>
        spaces (indent + 2) ++ p.1 ++ spaces (p.2.headD 0 - graphemeCount p.1)) ++
      [spaces indent ++ [')']]))

/-! ## Helper lemmas -/

theorem alookup_upsert_self {κ α : Type} [DecidableEq κ]
    (m : List (κ × α)) (k : κ) (v : α) : alookup (upsert m k v) k = some v := by
  simp [alookup, upsert, List.find?]

theorem utf8Len_shift (l : List Char) (a : Nat) :
    List.foldl (fun n c => n + c.utf8Size) a l =
      a + List.foldl (fun n c => n + c.utf8Size) 0 l := by
  induction l generalizing a with
  | nil => simp
  | cons c cs ih =>
    simp only [List.foldl_cons]
    rw [ih (a + c.utf8Size), ih (0 + c.utf8Size)]
    omega

theorem utf8Len_cons (c : Char) (l : List Char) :
    utf8Len (c :: l) = c.utf8Size + utf8Len l := by
  simp only [utf8Len, List.foldl_cons]
  rw [utf8Len_shift]
  omega

theorem utf8Len_ascii {l : List Char} (h : asciiStr l) :
    utf8Len l = l.length := by
  induction l with
  | nil => rfl
  | cons c cs ih =>
    rw [utf8Len_cons, ih (fun x hx => h x (List.mem_cons_of_mem c hx)),
      h c (List.mem_cons_self c cs), List.length_cons]
    omega

theorem asciiStr_drop {l : List Char} (h : asciiStr l) (n : Nat) :
    asciiStr (l.drop n) :=
  fun c hc => h c (List.mem_of_mem_drop hc)

theorem byteDrop_ascii {l : List Char} (h : asciiStr l) (a : Nat) :
    byteDrop l a = if a ≤ l.length then some (l.drop a) else none := by
  induction l generalizing a with
  | nil =>
    cases a with
    | zero => rfl
    | succ n => rfl
  | cons c cs ih =>
    cases a with
    | zero => rfl
    | succ n =>
      have hc : c.utf8Size = 1 := h c (List.mem_cons_self c cs)
      simp only [byteDrop, hc]
      rw [if_pos (by omega)]
      have : n + 1 - 1 = n := by omega
      rw [this, ih (fun x hx => h x (List.mem_cons_of_mem c hx))]
      by_cases hn : n ≤ cs.length
      · rw [if_pos hn, if_pos (by simpa using Nat.succ_le_succ hn)]
        rfl
      · rw [if_neg hn, if_neg (by simp; omega)]

theorem byteTake_ascii {l : List Char} (h : asciiStr l) (a : Nat) :
    byteTake l a = if a ≤ l.length then some (l.take a) else none := by
  induction l generalizing a with
  | nil =>
    cases a with
    | zero => rfl
    | succ n => rfl
  | cons c cs ih =>
    cases a with
    | zero => rfl
    | succ n =>
      have hc : c.utf8Size = 1 := h c (List.mem_cons_self c cs)
      simp only [byteTake, hc]
      rw [if_pos (by omega)]
      have : n + 1 - 1 = n := by omega
      rw [this, ih (fun x hx => h x (List.mem_cons_of_mem c hx))]
      by_cases hn : n ≤ cs.length
      · rw [if_pos hn, if_pos (by simpa using Nat.succ_le_succ hn)]
        rfl
      · rw [if_neg hn, if_neg (by simp; omega)]
        rfl

theorem byteSlice_ascii {l : List Char} (h : asciiStr l) {a b : Nat}
    (hab : a ≤ b) (hb : b ≤ l.length) :
    byteSlice l a b = some ((l.drop a).take (b - a)) := by
  unfold byteSlice
  rw [if_pos hab, byteDrop_ascii h, if_pos (Nat.le_trans hab hb)]
  simp only [Option.some_bind]
  rw [byteTake_ascii (asciiStr_drop h a)]
  rw [if_pos (by rw [List.length_drop]; omega)]

theorem wordCharL_of_R {c : Char} (h : isWordCharR c = true) :
    isWordCharL c = true := by
  simp only [isWordCharR, Bool.or_eq_true] at h
  simp only [isWordCharL, Bool.or_eq_true]
  tauto

theorem scanLeft_eq (line : List Char) (c0 : Nat)
    (hb : c0 = 0 ∨ ∃ ch, line.get? (c0 - 1) = some ch ∧ isWordCharL ch = false) :
    ∀ p, c0 ≤ p →
    (∀ k, c0 ≤ k → k < p → ∃ ch, line.get? k = some ch ∧ isWordCharL ch = true) →
    scanLeft line p = some c0 := by
  intro p
  induction p with
  | zero =>
    intro h1 _
    have : c0 = 0 := Nat.le_zero.mp h1
    subst this
    rfl
  | succ s ih =>
    intro h1 hrun
    by_cases hc : c0 = s + 1
    · subst hc
      rcases hb with h0 | ⟨ch, hch, hcl⟩
      · omega
      · simp only [scanLeft]
        have he : s + 1 - 1 = s := by omega
        rw [he] at hch
        rw [hch]
        simp [hcl]
    · have hcs : c0 ≤ s := by omega
      obtain ⟨ch, hch, hcl⟩ := hrun s hcs (by omega)
      simp only [scanLeft]
      rw [hch]
      simp only [hcl, if_true]
      exact ih hcs (fun k hk1 hk2 => hrun k hk1 (by omega))

theorem scanLeft_ex (line : List Char) :
    ∀ p, p ≤ line.length →
    ∃ c0, scanLeft line p = some c0 ∧ c0 ≤ p ∧
      (∀ k, c0 ≤ k → k < p → ∃ ch, line.get? k = some ch ∧ isWordCharL ch = true) ∧
      (c0 = 0 ∨ ∃ ch, line.get? (c0 - 1) = some ch ∧ isWordCharL ch = false) := by
  intro p
  induction p with
  | zero =>
    intro _
    exact ⟨0, rfl, le_rfl, fun k h1 h2 => absurd h2 (by omega), Or.inl rfl⟩
  | succ s ih =>
    intro hp
    have hs : s < line.length := by omega
    obtain ⟨ch, hch⟩ : ∃ ch, line.get? s = some ch := by
      cases hq : line.get? s with
      | none => exact absurd (List.get?_eq_none.mp hq) (by omega)
      | some ch => exact ⟨ch, rfl⟩
    by_cases hcl : isWordCharL ch = true
    · obtain ⟨c0, hsc, hle, hrun, hb⟩ := ih (by omega)
      refine ⟨c0, ?_, by omega, ?_, hb⟩
      · simp only [scanLeft]
        rw [hch]
        simpa [hcl] using hsc
      · intro k hk1 hk2
        by_cases hks : k = s
        · subst hks
          exact ⟨ch, hch, hcl⟩
        · exact hrun k hk1 (by omega)
    · have hcl2 : isWordCharL ch = false := by
        cases h : isWordCharL ch
        · rfl
        · exact absurd h hcl
      refine ⟨s + 1, ?_, le_rfl, fun k h1 h2 => absurd h1 (by omega),
        Or.inr ⟨ch, ?_, hcl2⟩⟩
      · simp only [scanLeft]
        rw [hch]
        simp [hcl2]
      · have : s + 1 - 1 = s := by omega
        rw [this]
        exact hch

theorem scanRightGo_eq (line : List Char) (byteLen : Nat)
    (hb : byteLen = line.length) (e0 : Nat) (he0 : e0 ≤ line.length)
    (hbnd : e0 = line.length ∨ ∃ ch, line.get? e0 = some ch ∧ isWordCharR ch = false) :
    ∀ fuel p, p ≤ e0 → line.length - p ≤ fuel →
    (∀ k, p ≤ k → k < e0 → ∃ ch, line.get? k = some ch ∧ isWordCharR ch = true) →
    scanRightGo line byteLen fuel p = some e0 := by
  intro fuel
  induction fuel with
  | zero =>
    intro p hp hf hrun
    have hpe : p = e0 := by omega
    subst hpe
    simp only [scanRightGo]
    rw [if_neg (by omega)]
  | succ f ih =>
    intro p hp hf hrun
    by_cases hpe : p = e0
    · subst hpe
      rcases hbnd with h | ⟨ch, hch, hcl⟩
      · simp only [scanRightGo]
        rw [if_neg (by omega)]
      · have hplt : p < line.length := (List.get?_eq_some.mp hch).1
        simp only [scanRightGo]
        rw [if_pos (by omega), hch]
        simp [hcl]
    · have hlt : p < e0 := by omega
      obtain ⟨ch, hch, hcl⟩ := hrun p le_rfl hlt
      simp only [scanRightGo]
      rw [if_pos (by omega), hch]
      simp only [hcl, if_true]
      exact ih (p + 1) (by omega) (by omega)
        (fun k hk1 hk2 => hrun k (by omega) hk2)

theorem scanRightGo_ex (line : List Char) (byteLen : Nat)
    (hb : byteLen = line.length) :
    ∀ fuel p, p ≤ line.length → line.length - p ≤ fuel →
    ∃ e0, scanRightGo line byteLen fuel p = some e0 ∧ p ≤ e0 ∧ e0 ≤ line.length ∧
      (∀ k, p ≤ k → k < e0 → ∃ ch, line.get? k = some ch ∧ isWordCharR ch = true) ∧
      (e0 = line.length ∨ ∃ ch, line.get? e0 = some ch ∧ isWordCharR ch = false) := by
  intro fuel
  induction fuel with
  | zero =>
    intro p hp hf
    have hpl : p = line.length := by omega
    refine ⟨p, ?_, le_rfl, by omega, fun k h1 h2 => absurd h1 (by omega),
      Or.inl hpl⟩
    simp only [scanRightGo]
    rw [if_neg (by omega)]
  | succ f ih =>
    intro p hp hf
    by_cases hpl : p = line.length
    · refine ⟨p, ?_, le_rfl, by omega, fun k h1 h2 => absurd h1 (by omega),
        Or.inl hpl⟩
      simp only [scanRightGo]
      rw [if_neg (by omega)]
    · have hplt : p < line.length := by omega
      obtain ⟨ch, hch⟩ : ∃ ch, line.get? p = some ch := by
        cases hq : line.get? p with
        | none => exact absurd (List.get?_eq_none.mp hq) (by omega)
        | some ch => exact ⟨ch, rfl⟩
      by_cases hcl : isWordCharR ch = true
      · obtain ⟨e0, hse, hpe, hel, hrun, hbnd⟩ := ih (p + 1) (by omega) (by omega)
        refine ⟨e0, ?_, by omega, hel, ?_, hbnd⟩
        · simp only [scanRightGo]
          rw [if_pos (by omega), hch]
          simpa [hcl] using hse
        · intro k hk1 hk2
          by_cases hkp : k = p
          · subst hkp
            exact ⟨ch, hch, hcl⟩
          · exact hrun k (by omega) hk2
      · have hcl2 : isWordCharR ch = false := by
          cases h : isWordCharR ch
          · rfl
          · exact absurd h hcl
        refine ⟨p, ?_, le_rfl, by omega, fun k h1 h2 => absurd h1 (by omega),
          Or.inr ⟨ch, hch, hcl2⟩⟩
        simp only [scanRightGo]
        rw [if_pos (by omega), hch]
        simp [hcl2]

theorem get_word_oob_line (text : List Char) (pos : Pos)
    (h : (rustLines text).get? pos.line = none) :
    get_word_at_position text pos = some [] := by
  simp only [get_word_at_position]
  rw [h]

theorem get_word_oob_char (text : List Char) (pos : Pos) (line : List Char)
    (hL : (rustLines text).get? pos.line = some line)
    (h : utf8Len line ≤ pos.character) :
    get_word_at_position text pos = some [] := by
  simp only [get_word_at_position, hL]
  rw [if_pos (by omega)]

theorem get_word_inbounds (text : List Char) (pos : Pos) (line : List Char)
    (hL : (rustLines text).get? pos.line = some line)
    (ha : asciiStr line) (hp : pos.character < line.length)
    (c e : Nat) (hc : scanLeft line pos.character = some c)
    (he : scanRightGo line line.length line.length pos.character = some e)
    (hce : c ≤ e) (hel : e ≤ line.length) :
    get_word_at_position text pos = some ((line.drop c).take (e - c)) := by
  simp only [get_word_at_position, hL]
  rw [utf8Len_ascii ha, if_neg (by omega), hc, he]
  exact byteSlice_ascii ha hce hel

theorem mem_splitOnChar_subset (sep : Char) :
    ∀ (t : List Char) l, l ∈ splitOnChar sep t → ∀ c ∈ l, c ∈ t := by
  intro t
  induction t with
  | nil =>
    intro l hl c hc
    simp only [splitOnChar, List.mem_singleton] at hl
    subst hl
    simp at hc
  | cons x xs ih =>
    intro l hl c hc
    simp only [splitOnChar] at hl
    by_cases hx : x = sep
    · rw [if_pos hx] at hl
      rcases List.mem_cons.mp hl with rfl | hl2
      · simp at hc
      · exact List.mem_cons_of_mem x (ih l hl2 c hc)
    · rw [if_neg hx] at hl
      cases hr : splitOnChar sep xs with
      | nil =>
        rw [hr] at hl
        simp only [List.mem_singleton] at hl
        subst hl
        simp only [List.mem_singleton] at hc
        rw [hc]
        exact List.mem_cons_self x xs
      | cons h t' =>
        rw [hr] at hl
        rcases List.mem_cons.mp hl with rfl | hl2
        · rcases List.mem_cons.mp hc with hcx | hc2
          · rw [hcx]
            exact List.mem_cons_self x xs
          · refine List.mem_cons_of_mem x (ih h ?_ c hc2)
            rw [hr]
            exact List.mem_cons_self h t'
        · refine List.mem_cons_of_mem x (ih l ?_ c hc)
          rw [hr]
          exact List.mem_cons_of_mem h hl2

theorem stripCRend_subset (l : List Char) : ∀ c ∈ stripCRend l, c ∈ l := by
  intro c hc
  unfold stripCRend at hc
  split at hc
  · split at hc
    · exact List.dropLast_subset l hc
    · exact hc
  · exact hc

theorem mem_rustLinesAux :
    ∀ parts l, l ∈ rustLinesAux parts → ∃ p ∈ parts, ∀ c ∈ l, c ∈ p := by
  intro parts
  induction parts with
  | nil =>
    intro l hl
    simp [rustLinesAux] at hl
  | cons p ps ih =>
    cases ps with
    | nil =>
      intro l hl
      simp only [rustLinesAux] at hl
      by_cases hp : p = []
      · rw [if_pos hp] at hl
        simp at hl
      · rw [if_neg hp] at hl
        simp only [List.mem_singleton] at hl
        subst hl
        exact ⟨l, List.mem_cons_self l [], fun c hc => hc⟩
    | cons q qs =>
      intro l hl
      simp only [rustLinesAux] at hl
      rcases List.mem_cons.mp hl with rfl | hl2
      · exact ⟨p, List.mem_cons_self p (q :: qs), stripCRend_subset p⟩
      · obtain ⟨r, hr, hsub⟩ := ih l hl2
        exact ⟨r, List.mem_cons_of_mem p hr, hsub⟩

theorem rustLines_ascii {t : List Char} (h : asciiStr t) :
    ∀ l ∈ rustLines t, asciiStr l := by
  intro l hl c hc
  obtain ⟨p, hp, hsub⟩ := mem_rustLinesAux _ l hl
  exact h c (mem_splitOnChar_subset '\n' t p hp c (hsub c hc))

theorem byteDrop_subset :
    ∀ (l : List Char) (n : Nat) (r : List Char),
    byteDrop l n = some r → ∀ x ∈ r, x ∈ l := by
  intro l
  induction l with
  | nil =>
    intro n r h x hx
    cases n with
    | zero =>
      simp only [byteDrop] at h
      rw [← Option.some.inj h] at hx
      exact hx
    | succ m => simp [byteDrop] at h
  | cons c cs ih =>
    intro n r h x hx
    cases n with
    | zero =>
      simp only [byteDrop] at h
      rw [← Option.some.inj h] at hx
      exact hx
    | succ m =>
      simp only [byteDrop] at h
      by_cases hsz : c.utf8Size ≤ m + 1
      · rw [if_pos hsz] at h
        exact List.mem_cons_of_mem c (ih (m + 1 - c.utf8Size) r h x hx)
      · rw [if_neg hsz] at h
        exact absurd h (by simp)

theorem byteTake_subset :
    ∀ (l : List Char) (n : Nat) (r : List Char),
    byteTake l n = some r → ∀ x ∈ r, x ∈ l := by
  intro l
  induction l with
  | nil =>
    intro n r h x hx
    cases n with
    | zero =>
      simp only [byteTake] at h
      rw [← Option.some.inj h] at hx
      simp at hx
    | succ m => simp [byteTake] at h
  | cons c cs ih =>
    intro n r h x hx
    cases n with
    | zero =>
      simp only [byteTake] at h
      rw [← Option.some.inj h] at hx
      simp at hx
    | succ m =>
      simp only [byteTake] at h
      by_cases hsz : c.utf8Size ≤ m + 1
      · rw [if_pos hsz] at h
        cases hr : byteTake cs (m + 1 - c.utf8Size) with
        | none =>
          rw [hr] at h
          exact absurd h (by simp)
        | some r2 =>
          rw [hr] at h
          simp only [Option.map_some', Option.some.injEq] at h
          rw [← h] at hx
          rcases List.mem_cons.mp hx with rfl | hx2
          · exact List.mem_cons_self x cs
          · exact List.mem_cons_of_mem c (ih (m + 1 - c.utf8Size) r2 hr x hx2)
      · rw [if_neg hsz] at h
        exact absurd h (by simp)

theorem byteSlice_subset (line : List Char) (a b : Nat) (w : List Char)
    (h : byteSlice line a b = some w) : ∀ x ∈ w, x ∈ line := by
  unfold byteSlice at h
  by_cases hab : a ≤ b
  · rw [if_pos hab] at h
    cases hd : byteDrop line a with
    | none =>
      rw [hd] at h
      exact absurd h (by simp)
    | some r =>
      rw [hd] at h
      simp only [Option.some_bind] at h
      intro x hx
      exact byteDrop_subset line a r hd x (byteTake_subset r (b - a) w h x hx)
  · rw [if_neg hab] at h
    exact absurd h (by simp)

theorem get_word_ascii (text : List Char) (pos : Pos) (word : List Char)
    (ht : asciiStr text) (hw : get_word_at_position text pos = some word) :
    asciiStr word := by
  cases hL : (rustLines text).get? pos.line with
  | none =>
    rw [get_word_oob_line text pos hL] at hw
    rw [← Option.some.inj hw]
    intro c hc
    simp at hc
  | some line =>
    simp only [get_word_at_position, hL] at hw
    have hla : asciiStr line := rustLines_ascii ht line (List.get?_mem hL)
    by_cases hge : pos.character ≥ utf8Len line
    · rw [if_pos hge] at hw
      rw [← Option.some.inj hw]
      intro c hc
      simp at hc
    · rw [if_neg hge] at hw
      cases hs : scanLeft line pos.character with
      | none =>
        rw [hs] at hw
        exact absurd hw (by simp)
      | some c0 =>
        rw [hs] at hw
        cases he : scanRightGo line (utf8Len line) (utf8Len line)
            pos.character with
        | none =>
          rw [he] at hw
          exact absurd hw (by simp)
        | some e0 =>
          rw [he] at hw
          intro c hc
          exact hla c (byteSlice_subset line c0 e0 word hw c hc)

theorem wsRead_mem (ws : List (Nat × List Char)) (uri : Nat)
    (text : List Char) (h : wsRead ws uri = some text) :
    ∃ p ∈ ws, p.2 = text := by
  unfold wsRead at h
  obtain ⟨p, hp1, hp2⟩ := Option.map_eq_some'.mp h
  exact ⟨p, List.mem_of_find?_eq_some hp1, hp2⟩

theorem flatMapO_eq_some {α β : Type} (f : α → Option (List β))
    (g : α → List β) :
    ∀ (xs : List α), (∀ x ∈ xs, f x = some (g x)) →
    flatMapO f xs = some (xs.flatMap g) := by
  intro xs
  induction xs with
  | nil => intro _; rfl
  | cons x xs ih =>
    intro h
    simp only [flatMapO, List.flatMap_cons]
    rw [h x (List.mem_cons_self x xs),
      ih (fun y hy => h y (List.mem_cons_of_mem x hy))]

theorem docLocations_alias_some (u : Nat) (text sw : List Char) :
    docLocations u text sw true = some (aliasDocLocations u text sw) := by
  unfold docLocations aliasDocLocations
  exact flatMapO_eq_some _
    (fun p : Nat × List Char => aliasLineLocations u p.1 p.2 sw) _
    (fun p _ => rfl)

/-! ## Claim C9 -/

/-- C9 counterexample: the claim states that the resolver returns the
empty string whenever the cursor lies on a non-identifier character.
In `"ab!"` at position (0,2) the cursor lies on `'!'`, which is in
neither word-character class, yet the resolver returns `"ab"` (the
left scan still expands over the identifier immediately before the
cursor), so "empty iff out of bounds or on a non-identifier
character" is false. -/
theorem c9_counterexample :
    get_word_at_position ("ab!".data) ⟨0, 2⟩ = some ("ab".data) ∧
    isWordCharR '!' = false ∧ isWordCharL '!' = false := by
  decide

/-- C9 (amended): for every text and position, the resolver returns
the empty string if the line or character position is out of bounds;
and on ASCII lines with an in-bounds position it returns the substring
obtained by expanding left over the identifier class including `'@'`
and right over the class excluding `'@'` (`wordCharacterization`),
which is empty if and only if the character at the position is not in
the rightward class AND the character before the position (if any) is
not in the leftward class. -/
theorem c9_resolver_characterization :
    (∀ (text : List Char) (pos : Pos),
      (rustLines text).get? pos.line = none →
      get_word_at_position text pos = some []) ∧
    (∀ (text : List Char) (pos : Pos) (line : List Char),
      (rustLines text).get? pos.line = some line →
      utf8Len line ≤ pos.character →
      get_word_at_position text pos = some []) ∧
    (∀ (text : List Char) (pos : Pos) (line : List Char),
      (rustLines text).get? pos.line = some line →
      asciiStr line → pos.character < line.length →
      ∃ c e, wordCharacterization line pos.character c e ∧
        get_word_at_position text pos = some ((line.drop c).take (e - c)) ∧
        ((line.drop c).take (e - c) = [] ↔
          ((∀ ch, line.get? pos.character = some ch → isWordCharR ch = false) ∧
           (pos.character = 0 ∨
            ∀ ch, line.get? (pos.character - 1) = some ch →
              isWordCharL ch = false)))) := by
  refine ⟨get_word_oob_line, get_word_oob_char, ?_⟩
  intro text pos line hL ha hp
  obtain ⟨c, hsc, hcle, hrunL, hbL⟩ := scanLeft_ex line pos.character (le_of_lt hp)
  obtain ⟨e, hse, hpe, hel, hrunR, hbR⟩ :=
    scanRightGo_ex line line.length rfl line.length pos.character
      (le_of_lt hp) (by omega)
  refine ⟨c, e, ⟨hcle, hpe, hel, hrunL, hbL, hrunR, hbR⟩,
    get_word_inbounds text pos line hL ha hp c e hsc hse
      (le_trans hcle hpe) hel, ?_, ?_⟩
  · intro hempty
    have hdl : (line.drop c).length = line.length - c := List.length_drop c line
    have hdne : ¬ line.drop c = [] := by
      intro hnil
      rw [hnil] at hdl
      simp at hdl
      omega
    have hec : e - c = 0 := by
      rcases List.take_eq_nil_iff.mp hempty with h | h
      · exact h
      · exact absurd h hdne
    have hep : e = pos.character := by omega
    have hcp : c = pos.character := by omega
    constructor
    · intro ch hch
      rcases hbR with hEq | ⟨ch2, hch2, hcl2⟩
      · omega
      · rw [hep] at hch2
        rw [hch2] at hch
        exact (Option.some.inj hch) ▸ hcl2
    · rcases hbL with h0 | ⟨ch2, hch2, hcl2⟩
      · exact Or.inl (by omega)
      · refine Or.inr (fun ch hch => ?_)
        rw [hcp] at hch2
        rw [hch2] at hch
        exact (Option.some.inj hch) ▸ hcl2
  · intro hrhs
    have hep : e = pos.character := by
      by_contra hne
      have hlt : pos.character < e := by omega
      obtain ⟨ch, hch, hcl⟩ := hrunR pos.character le_rfl hlt
      have hf := hrhs.1 ch hch
      rw [hf] at hcl
      exact Bool.false_ne_true hcl
    have hcp : c = pos.character := by
      by_contra hne
      have hlt : c < pos.character := by omega
      obtain ⟨ch, hch, hcl⟩ := hrunL (pos.character - 1) (by omega) (by omega)
      rcases hrhs.2 with h0 | hall
      · omega
      · have hf := hall ch hch
        rw [hf] at hcl
        exact Bool.false_ne_true hcl
    rw [hep, hcp]
    simp

/-- C9 witness: instantiates all three parts of the characterization
at concrete inputs. -/
theorem c9_witness :
    get_word_at_position ("ab".data) ⟨3, 0⟩ = some [] ∧
    get_word_at_position ("ab".data) ⟨0, 7⟩ = some [] ∧
    (∃ c e, wordCharacterization ("ab!".data) 0 c e ∧
      get_word_at_position ("ab!".data) ⟨0, 0⟩ =
        some ((("ab!".data).drop c).take (e - c)) ∧
      ((("ab!".data).drop c).take (e - c) = [] ↔
        ((∀ ch, ("ab!".data).get? 0 = some ch → isWordCharR ch = false) ∧
         ((0 : Nat) = 0 ∨
          ∀ ch, ("ab!".data).get? (0 - 1) = some ch →
            isWordCharL ch = false)))) :=
  ⟨c9_resolver_characterization.1 ("ab".data) ⟨3, 0⟩ (by decide),
   c9_resolver_characterization.2.1 ("ab".data) ⟨0, 7⟩ ("ab".data)
     (by decide) (by decide),
   c9_resolver_characterization.2.2 ("ab!".data) ⟨0, 0⟩ ("ab!".data)
     (by decide) (by decide) (by decide)⟩

/-! ## Claim C10 -/

/-- C10 counterexample: the claim states the resolver is total and
panic-free on every text including multi-byte text.  On the one-line
document `"→"` (a single 3-byte character) at position (0,1), the
bounds check `char_pos >= line.len()` passes (1 < 3 bytes), but the
end-expansion loop calls `line.chars().nth(1).unwrap()` on a line with
only one character, which panics (modelled by `none`). -/
theorem c10_counterexample :
    get_word_at_position ("→".data) ⟨0, 1⟩ = none := by
  decide

/-- C10 (amended): the resolver is total and panic-free on every text
whose characters are all single-byte (ASCII): every string index then
stays in bounds and the final slice falls on character boundaries. -/
theorem c10_resolver_total_ascii (text : List Char) (pos : Pos)
    (h : asciiStr text) :
    ∃ w, get_word_at_position text pos = some w := by
  cases hL : (rustLines text).get? pos.line with
  | none => exact ⟨[], get_word_oob_line text pos hL⟩
  | some line =>
    have ha : asciiStr line := rustLines_ascii h line (List.get?_mem hL)
    by_cases hp : pos.character < line.length
    · obtain ⟨c, hsc, hcle, _, _⟩ := scanLeft_ex line pos.character (le_of_lt hp)
      obtain ⟨e, hse, hpe, hel, _, _⟩ :=
        scanRightGo_ex line line.length rfl line.length pos.character
          (le_of_lt hp) (by omega)
      exact ⟨(line.drop c).take (e - c),
        get_word_inbounds text pos line hL ha hp c e hsc hse
          (le_trans hcle hpe) hel⟩
    · exact ⟨[], get_word_oob_char text pos line hL
        (by rw [utf8Len_ascii ha]; omega)⟩

/-- C10 witness: totality on a concrete ASCII document. -/
theorem c10_witness :
    ∃ w, get_word_at_position ("(deflayer nav)\nnav x".data) ⟨1, 1⟩ = some w :=
  c10_resolver_total_ascii ("(deflayer nav)\nnav x".data) ⟨1, 1⟩ (by decide)

/-! ## Claim C1 -/

/-- C1 counterexample: the document `"(defalias foo 3)\n@foo"` has a
same-line alias declaration of `foo` recorded at (0,10)-(0,13), and
position (1,0) lies inside the later `@foo` reference (on its `'@'`
sigil).  The claim requires go-to-definition there to return the
declaration's range, but the resolver yields the empty word at the
sigil position (the right-expansion class excludes `'@'`), so the
handler returns no location (`some none`). -/
theorem c1_counterexample :
    alookup (extract_symbols ("(defalias foo 3)\n@foo".data)).aliases
        ("foo".data) = some ⟨⟨0, 10⟩, ⟨0, 13⟩⟩ ∧
    goto_definition ("(defalias foo 3)\n@foo".data) ⟨1, 0⟩ = some none := by
  decide

/-- C1 (amended): for every document and every ASCII line containing a
reference `@name` delimited by non-word characters, go-to-definition
at any cursor position on the name characters (strictly after the
sigil, through the last name character) returns exactly the range the
symbol extractor recorded for `name` in the alias index of that
document. -/
theorem c1_goto_definition_alias (text : List Char) (i p : Nat)
    (line pre name suf : List Char) (R : Rng)
    (hL : (rustLines text).get? i = some line)
    (hline : line = pre ++ '@' :: (name ++ suf))
    (ha : asciiStr line)
    (hnameCl : ∀ c ∈ name, isWordCharR c = true)
    (hpre : ∀ c, pre.getLast? = some c → isWordCharL c = false)
    (hsuf : ∀ c, suf.head? = some c → isWordCharR c = false)
    (hp1 : pre.length + 1 ≤ p) (hp2 : p ≤ pre.length + name.length)
    (hLook : alookup (extract_symbols text).aliases name = some R) :
    goto_definition text ⟨i, p⟩ = some (some R) := by
  have hname : ¬ name = [] := by
    intro hnil
    rw [hnil] at hp2
    simp at hp2
    omega
  have hlen : line.length = pre.length + name.length + suf.length + 1 := by
    simp [hline]
    omega
  have hAt : line.get? pre.length = some '@' := by
    rw [hline, List.get?_append_right le_rfl]
    simp
  have hName : ∀ j, j < name.length →
      line.get? (pre.length + 1 + j) = name.get? j := by
    intro j hj
    rw [hline, List.get?_append_right (by omega)]
    have harith : pre.length + 1 + j - pre.length = j + 1 := by omega
    rw [harith, List.get?_cons_succ, List.get?_append hj]
  have hnm : ∀ k, pre.length + 1 ≤ k → k ≤ pre.length + name.length →
      ∃ ch, line.get? k = some ch ∧ isWordCharR ch = true := by
    intro k h1 h2
    have hj : k - (pre.length + 1) < name.length := by omega
    have hk : k = pre.length + 1 + (k - (pre.length + 1)) := by omega
    rw [hk, hName _ hj, List.get?_eq_get hj]
    exact ⟨_, rfl, hnameCl _ (name.get_mem _ hj)⟩
  have hplt : p < line.length := by omega
  have hsc : scanLeft line p = some pre.length := by
    apply scanLeft_eq line pre.length ?_ p (by omega) ?_
    · by_cases hpe : pre = []
      · exact Or.inl (by simp [hpe])
      · obtain ⟨ch, hch⟩ : ∃ ch, pre.getLast? = some ch := by
          cases h : pre.getLast? with
          | none => exact absurd (List.getLast?_eq_none.mp h) hpe
          | some ch => exact ⟨ch, rfl⟩
        refine Or.inr ⟨ch, ?_, hpre ch hch⟩
        have hlp : 0 < pre.length := List.length_pos.mpr hpe
        rw [hline, List.get?_append (by omega)]
        rw [List.getLast?_eq_get? pre] at hch
        exact hch
    · intro k hk1 hk2
      by_cases hkp : k = pre.length
      · subst hkp
        exact ⟨'@', hAt, by decide⟩
      · obtain ⟨ch, hch, hcl⟩ := hnm k (by omega) (by omega)
        exact ⟨ch, hch, wordCharL_of_R hcl⟩
  have hse : scanRightGo line line.length line.length p =
      some (pre.length + 1 + name.length) := by
    apply scanRightGo_eq line line.length rfl (pre.length + 1 + name.length)
      (by omega) ?_ line.length p (by omega) (by omega) ?_
    · cases hs : suf with
      | nil => exact Or.inl (by rw [hs] at hlen; simp at hlen; omega)
      | cons s ss =>
        refine Or.inr ⟨s, ?_, hsuf s (by rw [hs]; rfl)⟩
        rw [hline, List.get?_append_right (by omega)]
        have harith : pre.length + 1 + name.length - pre.length =
            name.length + 1 := by omega
        rw [harith, List.get?_cons_succ, List.get?_append_right le_rfl]
        simp [hs]
    · intro k hk1 hk2
      exact hnm k (by omega) (by omega)
  have hword : get_word_at_position text ⟨i, p⟩ = some ('@' :: name) := by
    have hw := get_word_inbounds text ⟨i, p⟩ line hL ha hplt
      (pre.length) (pre.length + 1 + name.length) hsc hse (by omega) (by omega)
    rw [hw]
    congr 1
    rw [hline, List.drop_left]
    have harith : pre.length + 1 + name.length - pre.length =
        name.length + 1 := by omega
    rw [harith, List.take_succ_cons, List.take_left]
  simp only [goto_definition, hword]
  rw [if_neg (by simp)]
  simp only [List.head?_cons, if_pos rfl, List.drop_one, List.tail_cons]
  rw [hLook]
  simp

/-- C1 witness: the amended theorem applied to a concrete document
with a same-line `(defalias foo 3)` declaration and a later `@foo`
reference, cursor on the first name character. -/
theorem c1_witness :
    goto_definition ("(defalias foo 3)\n@foo x".data) ⟨1, 2⟩ =
      some (some ⟨⟨0, 10⟩, ⟨0, 13⟩⟩) :=
  c1_goto_definition_alias ("(defalias foo 3)\n@foo x".data) 1 2
    ("@foo x".data) [] ("foo".data) (" x".data) ⟨⟨0, 10⟩, ⟨0, 13⟩⟩
    (by decide) (by decide) (by decide) (by decide) (by decide) (by decide)
    (by decide) (by decide) (by decide)

/-! ## Claim C7 -/

/-- C7 counterexample: formatting is not idempotent.  In the document
below the first pass re-flows `(deflayer a ...)`, putting its single
item `(defsrc ww ee)!` on a line of its own; the template parser of
the second pass then treats that line as a further `(defsrc` block,
growing the template from one item to three, so the second pass
reformats `(deflayer c x y zzz)` (three items) that the first pass had
left unchanged.  Hence `format (format t) ≠ format t`, refuting the
claim's "applying format twice gives the same result as applying it
once". -/
theorem c7_counterexample :
    ¬ format_document (format_document
        ("(defsrc q)\n(deflayer a (defsrc ww ee)!)\n(deflayer c x y zzz)".data)) =
      format_document
        ("(defsrc q)\n(deflayer a (defsrc ww ee)!)\n(deflayer c x y zzz)".data) := by
  decide

/-- C7 (amended): formatting is idempotent only in the fixpoint sense:
a document the formatter leaves unchanged (an already-correctly-aligned
document, for which the handler reports "no edits") is still unchanged
by a second application. -/
theorem c7_format_fixpoint (text : List Char)
    (h : format_document text = text) :
    format_document (format_document text) = format_document text := by
  rw [h]
  exact h

/-- C7 witness: a concrete correctly-aligned document is a fixpoint,
and the amended theorem applies to it. -/
theorem c7_witness :
    format_document ("(defsrc a)\n(deflayer x\n  q\n)".data) =
        "(defsrc a)\n(deflayer x\n  q\n)".data ∧
    format_document (format_document ("(defsrc a)\n(deflayer x\n  q\n)".data)) =
      format_document ("(defsrc a)\n(deflayer x\n  q\n)".data) :=
  ⟨by decide, c7_format_fixpoint ("(defsrc a)\n(deflayer x\n  q\n)".data) (by decide)⟩

/-! ## Claim C8 -/

/-- C8: when the scratch write and the external validator both succeed,
validation stores the empty diagnostic set for the document in the
pull-diagnostics cache and publishes the empty set on the push channel;
conversely a non-empty diagnostic set arises only when the scratch
write or the validator fails. -/
theorem c8_validator_ok_empty_diagnostics :
    (∀ (symbols : List (Nat × DocumentSymbols))
       (pull : List (Nat × List Diagnostic)) (uri : Nat) (text : List Char),
      alookup (validate_document symbols pull uri text (.ok ()) (.ok ())).2.1
          uri = some [] ∧
      (validate_document symbols pull uri text (.ok ()) (.ok ())).2.2 = []) ∧
    (∀ (text : List Char) (writeRes parseRes : Except (List Char) Unit),
      ¬ validate_diagnostics text writeRes parseRes = [] →
      (∃ e, writeRes = .error e) ∨ (∃ e, parseRes = .error e)) := by
  constructor
  · intro symbols pull uri text
    exact ⟨alookup_upsert_self pull uri [], rfl⟩
  · intro text w p h
    cases w with
    | error e => exact Or.inl ⟨e, rfl⟩
    | ok u =>
      cases p with
      | error e => exact Or.inr ⟨e, rfl⟩
      | ok v =>
        cases u
        cases v
        exact absurd rfl h

/-- C8 witness: both parts at concrete inputs. -/
theorem c8_witness :
    (alookup (validate_document [] [] 0 ("(defsrc a)".data)
        (.ok ()) (.ok ())).2.1 0 = some [] ∧
     (validate_document [] [] 0 ("(defsrc a)".data) (.ok ()) (.ok ())).2.2 = []) ∧
    ((∃ e, (Except.error ("boom".data) : Except (List Char) Unit) = .error e) ∨
     (∃ e, (Except.ok () : Except (List Char) Unit) = .error e)) :=
  ⟨c8_validator_ok_empty_diagnostics.1 [] [] 0 ("(defsrc a)".data),
   c8_validator_ok_empty_diagnostics.2 ("(defsrc a)".data)
     (.error ("boom".data)) (.ok ()) (by decide)⟩

/-! ## Claim C2 -/

theorem trimStartWs_head_not_ws {l : List Char} {c : Char} {cs : List Char}
    (h : trimStartWs l = c :: cs) : c.isWhitespace = false := by
  have hne : l.dropWhile Char.isWhitespace ≠ [] := by
    rw [show l.dropWhile Char.isWhitespace = c :: cs from h]
    simp
  have hh := List.head_dropWhile_not Char.isWhitespace (l := l) hne
  have hcv : (List.dropWhile Char.isWhitespace l).head hne = c := by
    have h2 : (List.dropWhile Char.isWhitespace l).head? = some c := by
      rw [show List.dropWhile Char.isWhitespace l = c :: cs from h]
      rfl
    rw [List.head?_eq_head hne] at h2
    exact Option.some.inj h2
  rw [hcv] at hh
  exact hh

theorem isPrefixOf_cons_head {a : Char} {as t : List Char}
    (h : (a :: as).isPrefixOf t = true) : t.head? = some a := by
  cases t with
  | nil => simp [List.isPrefixOf] at h
  | cons b bs =>
    simp only [List.isPrefixOf, Bool.and_eq_true, beq_iff_eq] at h
    rw [h.1]
    rfl

theorem kwAlias_cons : kwAlias = '(' :: ("defalias".data) := rfl

theorem kwLayer_cons : kwLayer = '(' :: ("deflayer".data) := rfl

theorem not_decl_of_head_ne {l : List Char}
    (h : ∀ a, (trimStartWs l).head? = some a → ¬ a = '(') :
    kwAlias.isPrefixOf (trimStartWs l) = false ∧
    kwLayer.isPrefixOf (trimStartWs l) = false := by
  constructor
  · cases hb : kwAlias.isPrefixOf (trimStartWs l) with
    | false => rfl
    | true =>
      rw [kwAlias_cons] at hb
      exact absurd rfl (h '(' (isPrefixOf_cons_head hb))
  · cases hb : kwLayer.isPrefixOf (trimStartWs l) with
    | false => rfl
    | true =>
      rw [kwLayer_cons] at hb
      exact absurd rfl (h '(' (isPrefixOf_cons_head hb))

theorem extractGo_nodecl :
    ∀ (ls : List (List Char)) (idx : Nat) (acc : DocumentSymbols),
    (∀ l ∈ ls, ∀ a, (trimStartWs l).head? = some a → ¬ a = '(') →
    extractGo ls idx acc = acc := by
  intro ls
  induction ls with
  | nil => intro idx acc _; rfl
  | cons l ls ih =>
    intro idx acc h
    obtain ⟨h1, h2⟩ := not_decl_of_head_ne (h l (List.mem_cons_self l ls))
    simp only [extractGo, h1, h2]
    exact ih (idx + 1) acc (fun x hx => h x (List.mem_cons_of_mem l hx))

theorem scanAheadName_skip :
    ∀ (mid : List (List Char)) (rest : List (List Char)) (idx : Nat),
    (∀ l ∈ mid, trimStartWs l = [] ∨ (trimStartWs l).head? = some ';') →
    scanAheadName (mid ++ rest) idx = scanAheadName rest (idx + mid.length) := by
  intro mid
  induction mid with
  | nil => intro rest idx _; simp
  | cons m ms ih =>
    intro rest idx h
    have hm := h m (List.mem_cons_self m ms)
    have step : scanAheadName ((m :: ms) ++ rest) idx =
        scanAheadName (ms ++ rest) (idx + 1) := by
      rcases hm with hb | hc
      · simp only [List.cons_append, scanAheadName, hb]
        simp
      · obtain ⟨c, cs, ht⟩ : ∃ c cs, trimStartWs m = c :: cs := by
          cases hq : trimStartWs m with
          | nil => rw [hq] at hc; simp at hc
          | cons c cs => exact ⟨c, cs, rfl⟩
        rw [ht] at hc
        simp only [List.head?_cons, Option.some.injEq] at hc
        subst hc
        simp only [List.cons_append, scanAheadName, ht]
        simp
      
    rw [step, ih rest (idx + 1) (fun x hx => h x (List.mem_cons_of_mem m hx))]
    have harith : idx + 1 + ms.length = idx + (m :: ms).length := by
      simp
      omega
    rw [harith]

theorem scanAheadName_hit (nameLine : List Char) (rest : List (List Char))
    (idx : Nat) (c : Char) (cs : List Char)
    (hh : trimStartWs nameLine = c :: cs)
    (h1 : ¬ c = ';') (h2 : ¬ c = ')') (h3 : ¬ c = '(') :
    scanAheadName (nameLine :: rest) idx =
      some ((c :: cs).take (nameEndIdx (c :: cs)), idx,
        utf8Len nameLine - utf8Len (c :: cs)) := by
  have hcw : c.isWhitespace = false := trimStartWs_head_not_ws hh
  have hpred : (c.isWhitespace || c = '(' || c = ')') = false := by
    simp [hcw, h2, h3]
  have hnm : ¬ (c :: cs).take (nameEndIdx (c :: cs)) = [] := by
    simp only [nameEndIdx, findCharP, hpred]
    cases hq : findCharP (fun x => x.isWhitespace || x = '(' || x = ')') cs with
    | none => simp
    | some k => simp
  simp only [scanAheadName, hh]
  rw [if_neg (by simp), if_neg (by simp [h1]), if_neg (by simp [h2]),
    if_pos hnm]

theorem scanAheadName_close (l : List Char) (rest : List (List Char))
    (idx : Nat) (h : (trimStartWs l).head? = some ')') :
    scanAheadName (l :: rest) idx = none := by
  obtain ⟨cs, ht⟩ : ∃ cs, trimStartWs l = ')' :: cs := by
    cases hq : trimStartWs l with
    | nil => rw [hq] at h; simp at h
    | cons c cs =>
      rw [hq] at h
      simp only [List.head?_cons, Option.some.injEq] at h
      subst h
      exact ⟨cs, rfl⟩
  simp only [scanAheadName, ht]
  rw [if_neg (by simp), if_neg (by simp), if_pos (by simp)]

theorem skipline_not_open {l : List Char}
    (h : trimStartWs l = [] ∨ (trimStartWs l).head? = some ';') :
    ∀ a, (trimStartWs l).head? = some a → ¬ a = '(' := by
  intro a ha hac
  rcases h with hb | hc
  · rw [hb] at ha
    simp at ha
  · rw [ha] at hc
    have h2 : a = ';' := by simpa using hc
    rw [hac] at h2
    exact absurd h2 (by decide)

theorem closeline_not_open {l : List Char}
    (h : (trimStartWs l).head? = some ')') :
    ∀ a, (trimStartWs l).head? = some a → ¬ a = '(' := by
  intro a ha hac
  rw [ha] at h
  have h2 : a = ')' := by simpa using h
  rw [hac] at h2
  exact absurd h2 (by decide)

theorem nameline_not_open {l : List Char} {c : Char} {cs : List Char}
    (hh : trimStartWs l = c :: cs) (h3 : ¬ c = '(') :
    ∀ a, (trimStartWs l).head? = some a → ¬ a = '(' := by
  intro a ha hac
  rw [hh] at ha
  have h2 : c = a := by simpa using ha
  exact h3 (h2.trans hac)

theorem extractGo_cons_alias (line : List Char) (ls : List (List Char))
    (idx : Nat) (acc : DocumentSymbols)
    (hA : kwAlias.isPrefixOf (trimStartWs line) = true)
    (nm : List Char) (r : Rng)
    (hd : declEntry kwAlias line idx ls = some (nm, r)) :
    extractGo (line :: ls) idx acc =
      extractGo ls (idx + 1) { acc with aliases := upsert acc.aliases nm r } := by
  simp only [extractGo]
  rw [hA]
  rw [if_pos rfl, hd]

theorem extractGo_cons_layer_none (line : List Char) (ls : List (List Char))
    (idx : Nat) (acc : DocumentSymbols)
    (hA : kwAlias.isPrefixOf (trimStartWs line) = false)
    (hLy : kwLayer.isPrefixOf (trimStartWs line) = true)
    (hd : declEntry kwLayer line idx ls = none) :
    extractGo (line :: ls) idx acc = extractGo ls (idx + 1) acc := by
  simp only [extractGo]
  rw [hA]
  rw [if_neg (by simp), hLy, if_pos rfl, hd]

/-- C2: (1) for a multi-line alias declaration — `(defalias` with
nothing usable after the keyword, then blank/comment (`;`) lines, then
a name line whose first character is not `;`, `)` or `(` — the symbol
extractor records the first token of the name line at the name line's
own index and indent, not at the opening form's position; (2) for a
multi-line layer declaration whose forward scan reaches a line
starting with `)` before any name line, no entry is recorded. -/
theorem c2_multiline_declaration :
    (∀ (text openL nameLine : List Char) (mid rest : List (List Char))
       (c : Char) (cs : List Char),
      rustLines text = openL :: (mid ++ nameLine :: rest) →
      kwAlias.isPrefixOf (trimStartWs openL) = true →
      sameLineCond (trimStartWs (trimStartMatches kwAlias
        (trimStartWs openL))) = false →
      (∀ l ∈ mid, trimStartWs l = [] ∨ (trimStartWs l).head? = some ';') →
      trimStartWs nameLine = c :: cs →
      ¬ c = ';' → ¬ c = ')' → ¬ c = '(' →
      (∀ l ∈ rest, ∀ a, (trimStartWs l).head? = some a → ¬ a = '(') →
      1 + mid.length < 4294967296 →
      utf8Len nameLine - utf8Len (c :: cs) +
        utf8Len ((c :: cs).take (nameEndIdx (c :: cs))) < 4294967296 →
      alookup (extract_symbols text).aliases
          ((c :: cs).take (nameEndIdx (c :: cs))) =
        some ⟨⟨1 + mid.length, utf8Len nameLine - utf8Len (c :: cs)⟩,
              ⟨1 + mid.length,
               utf8Len nameLine - utf8Len (c :: cs) +
                 utf8Len ((c :: cs).take (nameEndIdx (c :: cs)))⟩⟩) ∧
    (∀ (text openL closeLine : List Char) (mid : List (List Char)),
      rustLines text = openL :: (mid ++ [closeLine]) →
      kwLayer.isPrefixOf (trimStartWs openL) = true →
      kwAlias.isPrefixOf (trimStartWs openL) = false →
      sameLineCond (trimStartWs (trimStartMatches kwLayer
        (trimStartWs openL))) = false →
      (∀ l ∈ mid, trimStartWs l = [] ∨ (trimStartWs l).head? = some ';') →
      (trimStartWs closeLine).head? = some ')' →
      extract_symbols text = ⟨[], []⟩) := by
  constructor
  · intro text openL nameLine mid rest c cs hlines hA hcond hmid hh h1 h2 h3
      hrest hb1 hb2
    unfold extract_symbols
    rw [hlines]
    have hdecl : declEntry kwAlias openL 0 (mid ++ nameLine :: rest) =
        some ((c :: cs).take (nameEndIdx (c :: cs)),
          mkRangeU32 (1 + mid.length) (utf8Len nameLine - utf8Len (c :: cs))
            (1 + mid.length)
            (utf8Len nameLine - utf8Len (c :: cs) +
              utf8Len ((c :: cs).take (nameEndIdx (c :: cs))))) := by
      simp only [declEntry, hcond]
      rw [scanAheadName_skip mid (nameLine :: rest) 1 hmid,
        scanAheadName_hit nameLine rest (1 + mid.length) c cs hh h1 h2 h3]
      simp
    rw [extractGo_cons_alias openL (mid ++ nameLine :: rest) 0 ⟨[], []⟩ hA
      _ _ hdecl]
    rw [extractGo_nodecl (mid ++ nameLine :: rest) (0 + 1) _ (by
      intro l hl
      rcases List.mem_append.mp hl with hlm | hln
      · exact skipline_not_open (hmid l hlm)
      · rcases List.mem_cons.mp hln with rfl | hlr
        · exact nameline_not_open hh h3
        · exact hrest l hlr)]
    rw [alookup_upsert_self]
    simp only [mkRangeU32, Option.some.injEq]
    have e1 : u32cast (1 + mid.length) = 1 + mid.length :=
      Nat.mod_eq_of_lt hb1
    have e2 : u32cast (utf8Len nameLine - utf8Len (c :: cs)) =
        utf8Len nameLine - utf8Len (c :: cs) := Nat.mod_eq_of_lt (by omega)
    have e3 : u32cast (utf8Len nameLine - utf8Len (c :: cs) +
        utf8Len ((c :: cs).take (nameEndIdx (c :: cs)))) =
        utf8Len nameLine - utf8Len (c :: cs) +
          utf8Len ((c :: cs).take (nameEndIdx (c :: cs))) :=
      Nat.mod_eq_of_lt hb2
    rw [e1, e2, e3]
  · intro text openL closeLine mid hlines hLy hA hcond hmid hclose
    unfold extract_symbols
    rw [hlines]
    have hdecl : declEntry kwLayer openL 0 (mid ++ [closeLine]) = none := by
      simp only [declEntry, hcond]
      rw [scanAheadName_skip mid [closeLine] 1 hmid,
        scanAheadName_close closeLine [] (1 + mid.length) hclose]
      simp
    rw [extractGo_cons_layer_none openL (mid ++ [closeLine]) 0 ⟨[], []⟩
      hA hLy hdecl]
    exact extractGo_nodecl (mid ++ [closeLine]) (0 + 1) ⟨[], []⟩ (by
      intro l hl
      rcases List.mem_append.mp hl with hlm | hln
      · exact skipline_not_open (hmid l hlm)
      · rcases List.mem_cons.mp hln with rfl | hlr
        · exact closeline_not_open hclose
        · simp at hlr)

/-- C2 witness: a concrete multi-line alias declaration with a comment
line records `foo` at line 2, columns 2-5; a concrete layer form closed
before any name line records nothing. -/
theorem c2_witness :
    alookup (extract_symbols ("(defalias\n  ; note\n  foo 3\n)".data)).aliases
        (('f' :: ("oo 3".data)).take (nameEndIdx ('f' :: ("oo 3".data)))) =
      some ⟨⟨1 + 1, utf8Len ("  foo 3".data) - utf8Len ('f' :: ("oo 3".data))⟩,
            ⟨1 + 1,
             utf8Len ("  foo 3".data) - utf8Len ('f' :: ("oo 3".data)) +
               utf8Len (('f' :: ("oo 3".data)).take
                 (nameEndIdx ('f' :: ("oo 3".data))))⟩⟩ ∧
    extract_symbols ("(deflayer\n  ; note\n)".data) = ⟨[], []⟩ :=
  ⟨c2_multiline_declaration.1
      ("(defalias\n  ; note\n  foo 3\n)".data)
      ("(defalias".data) ("  foo 3".data) [("  ; note".data)] [(")".data)]
      'f' ("oo 3".data) (by decide) (by decide) (by decide) (by decide)
      (by decide) (by decide) (by decide) (by decide) (by decide)
      (by decide) (by decide),
   c2_multiline_declaration.2
      ("(deflayer\n  ; note\n)".data)
      ("(deflayer".data) (")".data) [("  ; note".data)]
      (by decide) (by decide) (by decide) (by decide) (by decide) (by decide)⟩

/-! ## Claim C3 -/

theorem intercalateNL_cons (x : List Char) (xs : List (List Char)) :
    intercalateNL (x :: xs) = x ++ xs.flatMap (fun l => '\n' :: l) := by
  induction xs generalizing x with
  | nil => simp [intercalateNL]
  | cons y ys ih =>
    show x ++ '\n' :: intercalateNL (y :: ys) = _
    rw [ih y]
    simp

theorem foldl_append_nl {α : Type} (g : α → List Char) :
    ∀ (pairs : List α) (acc : List Char),
    pairs.foldl (fun a p => a ++ '\n' :: g p) acc =
      acc ++ pairs.flatMap (fun p => '\n' :: g p) := by
  intro pairs
  induction pairs with
  | nil => intro acc; simp
  | cons p ps ih =>
    intro acc
    simp only [List.foldl_cons, List.flatMap_cons]
    rw [ih]
    simp

theorem pad_if_eq (iw w : Nat) :
    (if iw < w then spaces (w - iw) else []) = spaces (w - iw) := by
  by_cases h : iw < w
  · rw [if_pos h]
  · rw [if_neg h]
    have : w - iw = 0 := by omega
    rw [this]
    rfl

/-- C3 counterexample: with template `(defsrc q)` (single item of
grapheme width 1) and the matching block `(deflayer x abc)`, the
formatter rewrites the block but emits the item `abc` (grapheme width
3) with no padding and no truncation, so the rewritten item is not
"right-padded with spaces exactly to the template's width" — its
width 3 differs from the template width 1. -/
theorem c3_counterexample :
    parse_defsrc_layout ("(defsrc q)\n(deflayer x abc)".data) = some [[1]] ∧
    format_document ("(defsrc q)\n(deflayer x abc)".data) =
      "(defsrc q)\n(deflayer x\n  abc\n)".data ∧
    ¬ graphemeCount ("abc".data) = 1 := by
  decide

/-- C3 (amended): for every deflayer block, if its parsed item count
differs from the template's the block's consumed lines are emitted
byte-for-byte unchanged (joined exactly as read); if the counts agree
the block is rewritten as `alignedBlockSpec`: the heading with the
layer name, one item per line at the original indentation plus two,
each item right-padded with spaces to its template width when not
wider (wider items are emitted unpadded), and the closing paren at the
original indentation. -/
theorem c3_deflayer_formatting (lines : List (List Char)) (start_idx : Nat)
    (layout : List (List Nat)) (indent : Nat) (layerName : List Char)
    (items : List (List Char)) (nexti : Nat)
    (hpb : parse_deflayer_block lines start_idx =
      (indent, layerName, items, nexti)) :
    (¬ items.length = layout.length →
      format_deflayer lines start_idx layout =
        (intercalateNL ((lines.drop start_idx).take (nexti - start_idx)),
         nexti)) ∧
    (items.length = layout.length →
      format_deflayer lines start_idx layout =
        (alignedBlockSpec indent layerName items layout, nexti)) := by
  constructor
  · intro hne
    simp only [format_deflayer, hpb]
    rw [if_pos hne]
  · intro heq
    simp only [format_deflayer, hpb]
    rw [if_neg (by simp [heq])]
    simp only [Prod.mk.injEq]
    refine ⟨?_, trivial⟩
    rw [foldl_append_nl]
    simp only [alignedBlockSpec, intercalateNL_cons, List.flatMap_append,
      List.flatMap_cons, List.flatMap_nil, List.flatMap_map, pad_if_eq]
    simp [Function.comp, List.append_assoc, pad_if_eq]

/-- C3 witness: both branches at a concrete block — a matching layout
(two items, widths 3 and 1) triggers the aligned rewrite; a
single-width layout mismatches the two-item block, which is emitted
unchanged. -/
theorem c3_witness :
    format_deflayer [("(deflayer x ab c)".data)] 0 [[3], [1]] =
      (alignedBlockSpec 0 ("x".data) [("ab".data), ("c".data)] [[3], [1]],
       1) ∧
    format_deflayer [("(deflayer x ab c)".data)] 0 [[1]] =
      (intercalateNL (([("(deflayer x ab c)".data)].drop 0).take (1 - 0)),
       1) :=
  ⟨(c3_deflayer_formatting [("(deflayer x ab c)".data)] 0 [[3], [1]] 0
      ("x".data) [("ab".data), ("c".data)] 1 (by decide)).2 (by decide),
   (c3_deflayer_formatting [("(deflayer x ab c)".data)] 0 [[1]] 0
      ("x".data) [("ab".data), ("c".data)] 1 (by decide)).1 (by decide)⟩

/-! ## Claim C6 -/

theorem gutterScan_none :
    ∀ (ls : List (List Char)) (el : Option Nat),
    (∀ l ∈ ls, containsSub markerStart1 l = false ∧
               containsSub markerStart2 l = false) →
    ∃ el2, gutterScan ls none el = (none, el2) := by
  intro ls
  induction ls with
  | nil => intro el _; exact ⟨el, rfl⟩
  | cons l ls ih =>
    intro el h
    obtain ⟨h1, h2⟩ := h l (List.mem_cons_self l ls)
    simp only [gutterScan, h1, h2]
    simp only [Bool.or_self, Bool.false_eq_true, false_and, if_false]
    exact ih _ (fun x hx => h x (List.mem_cons_of_mem l hx))

theorem findCharP_boundary (p : Char → Bool) :
    ∀ (xs : List Char) (y : Char) (r : List Char),
    (∀ x ∈ xs, p x = false) → p y = true →
    findCharP p (xs ++ y :: r) = some xs.length := by
  intro xs
  induction xs with
  | nil =>
    intro y r _ hy
    simp [findCharP, hy]
  | cons x xs ih =>
    intro y r h hy
    have hx := h x (List.mem_cons_self x xs)
    simp only [List.cons_append, findCharP, hx, Bool.false_eq_true, if_false,
      List.append_eq]
    rw [ih y r (fun a ha => h a (List.mem_cons_of_mem x ha)) hy]
    simp

theorem splitOnChar_no (c : Char) :
    ∀ (l : List Char), (∀ x ∈ l, ¬ x = c) → splitOnChar c l = [l] := by
  intro l
  induction l with
  | nil => intro _; rfl
  | cons x xs ih =>
    intro h
    simp only [splitOnChar]
    rw [if_neg (h x (List.mem_cons_self x xs)),
      ih (fun a ha => h a (List.mem_cons_of_mem x ha))]

theorem splitOnChar_mid (c : Char) :
    ∀ (xs ys : List Char), (∀ x ∈ xs, ¬ x = c) →
    splitOnChar c (xs ++ c :: ys) = xs :: splitOnChar c ys := by
  intro xs
  induction xs with
  | nil =>
    intro ys _
    simp only [List.nil_append, splitOnChar]
    simp
  | cons x xs ih =>
    intro ys h
    simp only [List.cons_append, splitOnChar, List.append_eq]
    rw [if_neg (h x (List.mem_cons_self x xs)),
      ih ys (fun a ha => h a (List.mem_cons_of_mem x ha))]

theorem digit_ne {c d : Char} (h : c.isDigit = true) (hd : d.isDigit = false) :
    ¬ c = d := by
  intro he
  rw [he] at h
  rw [h] at hd
  exact Bool.noConfusion hd

theorem normalizeRange_valid (a b c d : Nat) :
    validRange (normalizeRange a b c d) := by
  unfold normalizeRange validRange
  split
  · simp
  · next h =>
    simp only
    omega

theorem end_col_for_ge (text : List Char) (sl sc : Nat) :
    sc + 1 ≤ end_col_for text sl sc sl := by
  unfold end_col_for
  rw [if_pos rfl]
  exact le_max_right _ _

theorem extract_line_info_bracket (msg : List Char) (s L C : Nat)
    (dl dc rest2 : List Char)
    (hm : ∀ l ∈ rustLines msg, containsSub markerStart1 l = false ∧
          containsSub markerStart2 l = false)
    (hk : findSub kbdPat msg = some s)
    (hd : msg.drop (s + 5) = dl ++ ':' :: (dc ++ ']' :: rest2))
    (hdl : dl.all Char.isDigit = true) (hdc : dc.all Char.isDigit = true)
    (hL : parseU32 dl = some L) (hC : parseU32 dc = some C) :
    extract_line_info msg = (L - 1, C - 1, L - 1) := by
  obtain ⟨el2, hg⟩ := gutterScan_none (rustLines msg) none hm
  have hshape : msg.drop (s + 5) = (dl ++ ':' :: dc) ++ ']' :: rest2 := by
    rw [hd]
    simp
  have hnotb : ∀ x ∈ dl ++ ':' :: dc, (decide (x = ']') : Bool) = false := by
    intro x hx
    rcases List.mem_append.mp hx with hx1 | hx2
    · exact decide_eq_false
        (digit_ne (by simpa using List.all_eq_true.mp hdl x hx1) (by decide))
    · rcases List.mem_cons.mp hx2 with rfl | hx3
      · decide
      · exact decide_eq_false
          (digit_ne (by simpa using List.all_eq_true.mp hdc x hx3) (by decide))
  have hfind : findCharP (fun c => c = ']')
      ((dl ++ ':' :: dc) ++ ']' :: rest2) = some (dl ++ ':' :: dc).length :=
    findCharP_boundary (fun c => decide (c = ']')) (dl ++ ':' :: dc)
      ']' rest2 hnotb (by decide)
  have htake : ((dl ++ ':' :: dc) ++ ']' :: rest2).take
      (dl ++ ':' :: dc).length = dl ++ ':' :: dc := List.take_left _ _
  have hsplit : splitOnChar ':' (dl ++ ':' :: dc) = [dl, dc] := by
    rw [splitOnChar_mid ':' dl dc (fun x hx =>
      digit_ne (by simpa using List.all_eq_true.mp hdl x hx) (by decide))]
    rw [splitOnChar_no ':' dc (fun x hx =>
      digit_ne (by simpa using List.all_eq_true.mp hdc x hx) (by decide))]
  simp only [extract_line_info, hg, hk, hshape, hfind, htake, hsplit]
  simp [hL, hC]

/-- C6: (1) for a validator report with no gutter range markers whose
first `.kbd:` locator is followed by `line:col]` (both 1-based
numerals), the diagnostic translation converts them to a 0-based start
position `(line-1, col-1)` on a single-line range ending at least one
character later; (2) for every report and every live text, the final
diagnostic range is never empty nor inverted. -/
theorem c6_diagnostic_translation :
    (∀ (msg text : List Char) (s L C : Nat) (dl dc rest2 : List Char),
      (∀ l ∈ rustLines msg, containsSub markerStart1 l = false ∧
          containsSub markerStart2 l = false) →
      findSub kbdPat msg = some s →
      msg.drop (s + 5) = dl ++ ':' :: (dc ++ ']' :: rest2) →
      dl.all Char.isDigit = true → dc.all Char.isDigit = true →
      parseU32 dl = some L → parseU32 dc = some C →
      (diag_range msg text).start = ⟨L - 1, C - 1⟩ ∧
      (diag_range msg text).stop.line = L - 1 ∧
      C - 1 < (diag_range msg text).stop.character) ∧
    (∀ (msg text : List Char), validRange (diag_range msg text)) := by
  constructor
  · intro msg text s L C dl dc rest2 hm hk hd hdl hdc hL hC
    have hinfo := extract_line_info_bracket msg s L C dl dc rest2 hm hk hd
      hdl hdc hL hC
    simp only [diag_range, hinfo]
    have hge := end_col_for_ge text (L - 1) (C - 1)
    unfold normalizeRange
    rw [if_neg (by omega)]
    refine ⟨rfl, rfl, ?_⟩
    show C - 1 < end_col_for text (L - 1) (C - 1) (L - 1)
    omega
  · intro msg text
    exact normalizeRange_valid _ _ _ _

/-- C6 witness: the claim's own example `[config.kbd:78:1]` yields a
0-based start of (77, 0) and a non-empty single-line range. -/
theorem c6_witness :
    ((diag_range ("bad config [config.kbd:78:1] oops".data)
        ("(defsrc a)".data)).start = ⟨77, 0⟩ ∧
     (diag_range ("bad config [config.kbd:78:1] oops".data)
        ("(defsrc a)".data)).stop.line = 77 ∧
     0 < (diag_range ("bad config [config.kbd:78:1] oops".data)
        ("(defsrc a)".data)).stop.character) ∧
    validRange (diag_range ("x".data) ("y".data)) :=
  ⟨by
    have h := c6_diagnostic_translation.1
      ("bad config [config.kbd:78:1] oops".data) ("(defsrc a)".data)
      18 78 1 ("78".data) ("1".data) (" oops".data)
      (by decide) (by decide) (by decide) (by decide) (by decide)
      (by decide) (by decide)
    exact h,
   c6_diagnostic_translation.2 ("x".data) ("y".data)⟩

/-! ## Claim C5 -/

theorem mem_enumFrom {α : Type} :
    ∀ (L : List α) (j i : Nat) (a : α),
    (i, a) ∈ enumFrom j L ↔ j ≤ i ∧ L.get? (i - j) = some a := by
  intro L
  induction L with
  | nil =>
    intro j i a
    simp [enumFrom]
  | cons x xs ih =>
    intro j i a
    simp only [enumFrom, List.mem_cons]
    constructor
    · rintro (heq | hmem)
      · obtain ⟨h1, h2⟩ := Prod.mk.injEq .. ▸ heq
        injection heq with hji hxa
        subst hji
        subst hxa
        exact ⟨le_rfl, by simp⟩
      · obtain ⟨h1, h2⟩ := (ih (j + 1) i a).mp hmem
        refine ⟨by omega, ?_⟩
        have : i - j = (i - (j + 1)) + 1 := by omega
        rw [this, List.get?_cons_succ]
        exact h2
    · rintro ⟨h1, h2⟩
      by_cases hij : i = j
      · subst hij
        left
        simp only [Nat.sub_self, List.get?_cons_zero, Option.some.injEq] at h2
        rw [h2]
      · right
        refine (ih (j + 1) i a).mpr ⟨by omega, ?_⟩
        have : i - j = (i - (j + 1)) + 1 := by omega
        rw [this, List.get?_cons_succ] at h2
        exact h2

theorem layerMatch_eq_boundary (line name : List Char) (c : Nat)
    (hc : c < line.length) :
    wordBoundaryOccurrence line name c = layerMatchAscii line name c := by
  unfold wordBoundaryOccurrence layerMatchAscii
  have h1 : decide (c < line.length) = true := decide_eq_true hc
  rw [h1, Bool.true_and]
  have hbef : (decide (c = 0) ||
      (match line.get? (c - 1) with
       | some ch => ! ch.isAlphanum
       | none => true)) =
      (decide (c = 0) ||
      (match line.get? (c - 1) with
       | some ch => ! ch.isAlphanum
       | none => false)) := by
    by_cases h0 : c = 0
    · rw [decide_eq_true h0]
      simp
    · have hlt : c - 1 < line.length := by omega
      rw [List.get?_eq_get hlt]
  have haft : (decide (c + name.length ≥ line.length) ||
      (match line.get? (c + name.length) with
       | some ch => ! ch.isAlphanum
       | none => true)) =
      (decide (c + name.length ≥ line.length) ||
      ! (match line.get? (c + name.length) with
         | some ch => ch.isAlphanum
         | none => false)) := by
    by_cases hge : c + name.length ≥ line.length
    · rw [decide_eq_true hge]
      simp
    · have hlt : c + name.length < line.length := by omega
      rw [List.get?_eq_get hlt]
  rw [hbef, haft]

theorem layerMatch_iff_boundary (line name : List Char) (c : Nat) :
    (c ∈ List.range line.length ∧ layerMatchAscii line name c = true) ↔
    wordBoundaryOccurrence line name c = true := by
  rw [List.mem_range]
  constructor
  · rintro ⟨hc, hm⟩
    rw [layerMatch_eq_boundary line name c hc]
    exact hm
  · intro hb
    have hc : c < line.length := by
      by_contra hnc
      unfold wordBoundaryOccurrence at hb
      rw [decide_eq_false hnc] at hb
      simp at hb
    refine ⟨hc, ?_⟩
    rw [← layerMatch_eq_boundary line name c hc]
    exact hb

theorem layerBoundaryOk_ascii (line name : List Char) (hl : asciiStr line)
    (hn : asciiStr name) (k : Nat) (hk : k < line.length) :
    layerBoundaryOk line name k =
      some ((decide (k = 0) ||
        (match line.get? (k - 1) with
         | some c => ! c.isAlphanum
         | none => false)) &&
        (decide (k + name.length ≥ line.length) ||
          ! (match line.get? (k + name.length) with
             | some c => c.isAlphanum
             | none => false))) := by
  unfold layerBoundaryOk
  rw [utf8Len_ascii hl, utf8Len_ascii hn]
  by_cases h0 : k = 0
  · subst h0
    rw [if_pos rfl]
    simp
  · rw [if_neg h0]
    have hlt : k - 1 < line.length := by omega
    obtain ⟨c, hc⟩ : ∃ c, line.get? (k - 1) = some c := by
      cases hq : line.get? (k - 1) with
      | none => exact absurd (List.get?_eq_none.mp hq) (by omega)
      | some c => exact ⟨c, rfl⟩
    rw [hc, decide_eq_false h0]
    simp

theorem layerScanGo_ascii (line name : List Char)
    (hl : asciiStr line) (hn : asciiStr name) :
    ∀ (suffix : List Char) (k : Nat), suffix = line.drop k →
    layerScanGo line name suffix k =
      some ((List.range' k suffix.length).filter
        (layerMatchAscii line name)) := by
  intro suffix
  induction suffix with
  | nil =>
    intro k _
    rfl
  | cons c cs ih =>
    intro k hdrop
    have hk : k < line.length := by
      have h1 : (line.drop k).length = line.length - k := List.length_drop k line
      rw [← hdrop] at h1
      simp only [List.length_cons] at h1
      omega
    have hcs : cs = line.drop (k + 1) := by
      have h2 : (line.drop k).drop 1 = line.drop (k + 1) := by
        rw [List.drop_drop]
      rw [← hdrop] at h2
      simpa using h2
    have hgetk : line.get? k = some c := by
      have h3 := List.get?_drop line k 0
      rw [← hdrop] at h3
      simpa using h3.symm
    have hca : c.utf8Size = 1 := hl c (List.get?_mem hgetk)
    have hrng : List.range' k (c :: cs).length =
        k :: List.range' (k + 1) cs.length := rfl
    by_cases hpre : name.isPrefixOf (c :: cs) = true
    · have hme : layerMatchAscii line name k =
          ((decide (k = 0) ||
            (match line.get? (k - 1) with
             | some ch => ! ch.isAlphanum
             | none => false)) &&
            (decide (k + name.length ≥ line.length) ||
              ! (match line.get? (k + name.length) with
                 | some ch => ch.isAlphanum
                 | none => false))) := by
        unfold layerMatchAscii
        rw [← hdrop, hpre, Bool.true_and]
      have hb := layerBoundaryOk_ascii line name hl hn k hk
      rw [← hme] at hb
      cases hmv : layerMatchAscii line name k with
      | false =>
        rw [hmv] at hb
        simp only [layerScanGo, hca]
        rw [if_pos hpre]
        simp only [hb]
        rw [ih (k + 1) hcs, hrng, List.filter_cons]
        simp [hmv]
      | true =>
        rw [hmv] at hb
        simp only [layerScanGo, hca]
        rw [if_pos hpre]
        simp only [hb]
        rw [ih (k + 1) hcs]
        rw [hrng, List.filter_cons]
        simp [hmv]
    · have hpf : name.isPrefixOf (c :: cs) = false := by
        cases hx : name.isPrefixOf (c :: cs)
        · rfl
        · exact absurd hx hpre
      have hmk : layerMatchAscii line name k = false := by
        unfold layerMatchAscii
        rw [← hdrop, hpf]
        simp
      simp only [layerScanGo, hca]
      rw [if_neg hpre]
      rw [ih (k + 1) hcs, hrng, List.filter_cons]
      simp [hmk]

theorem layerScanLine_ascii (line name : List Char)
    (hl : asciiStr line) (hn : asciiStr name) :
    layerScanLine line name =
      some ((List.range line.length).filter (layerMatchAscii line name)) := by
  unfold layerScanLine
  rw [layerScanGo_ascii line name hl hn line 0 (by simp),
    List.range_eq_range']

theorem scanLineLocations_layer_ascii (u i : Nat) (line name : List Char)
    (hl : asciiStr line) (hn : asciiStr name) :
    scanLineLocations u i line name false =
      some (layerLineLocations u i line name) := by
  unfold scanLineLocations layerLineLocations
  simp only [Bool.false_eq_true, if_false]
  rw [layerScanLine_ascii line name hl hn, utf8Len_ascii hn]

theorem docLocations_layer_ascii (u : Nat) (text name : List Char)
    (ht : asciiStr text) (hn : asciiStr name) :
    docLocations u text name false =
      some (layerDocLocations u text name) := by
  unfold docLocations layerDocLocations
  refine flatMapO_eq_some _
    (fun p : Nat × List Char => layerLineLocations u p.1 p.2 name) _ ?_
  intro p hp
  obtain ⟨i, a⟩ := p
  rw [mem_enumFrom (rustLines text) 0 i a] at hp
  simp only [Nat.sub_zero] at hp
  exact scanLineLocations_layer_ascii u i a name
    (rustLines_ascii ht a (List.get?_mem hp.2)) hn

theorem mem_docLocations_layer (u : Nat) (text word : List Char)
    (loc : Location) :
    loc ∈ layerDocLocations u text word ↔
      ∃ i line, (rustLines text).get? i = some line ∧
        ∃ c, (c ∈ List.range line.length ∧
            layerMatchAscii line word c = true) ∧
          loc = ⟨u, mkRangeU32 i c i (c + word.length)⟩ := by
  unfold layerDocLocations
  rw [List.mem_flatMap]
  constructor
  · rintro ⟨q, hq, hloc⟩
    obtain ⟨i, a⟩ := q
    rw [mem_enumFrom (rustLines text) 0 i a] at hq
    simp only [Nat.sub_zero] at hq
    refine ⟨i, a, hq.2, ?_⟩
    unfold layerLineLocations at hloc
    rw [List.mem_map] at hloc
    obtain ⟨c, hc, heq⟩ := hloc
    rw [List.mem_filter] at hc
    exact ⟨c, ⟨hc.1, hc.2⟩, heq.symm⟩
  · rintro ⟨i, a, hget, c, ⟨hcr, hcm⟩, heq⟩
    refine ⟨(i, a), ?_, ?_⟩
    · rw [mem_enumFrom (rustLines text) 0 i a]
      simpa using hget
    · unfold layerLineLocations
      rw [List.mem_map]
      exact ⟨c, by rw [List.mem_filter]; exact ⟨hcr, hcm⟩, heq.symm⟩

theorem references_layer_eq (ws : List (Nat × List Char)) (uri : Nat)
    (pos : Pos) (text word : List Char)
    (hws : ∀ p ∈ ws, asciiStr p.2)
    (hword : asciiStr word)
    (hr : wsRead ws uri = some text)
    (hw : get_word_at_position text pos = some word)
    (hne : ¬ word = [])
    (hna : ¬ word.head? = some '@') :
    references ws uri pos =
      (if ws.flatMap (fun p => layerDocLocations p.1 p.2 word) = [] then
        some none
      else
        some (some (ws.flatMap (fun p => layerDocLocations p.1 p.2 word)))) := by
  simp only [references, hr, hw]
  rw [if_neg hne, if_neg hna,
    flatMapO_eq_some (fun p => docLocations p.1 p.2 word false)
      (fun p => layerDocLocations p.1 p.2 word) ws
      (fun p hp => docLocations_layer_ascii p.1 p.2 word (hws p hp) hword)]

/-- C5 counterexample: on a line containing a multi-byte character the
scan's boundary checks consult the wrong character (byte offsets are
fed to `chars().nth`), so a bare word-boundary occurrence of the layer
name is not reported.  In the document `"nav\né nav"` the name `nav`
occurs with word boundaries on line 1 (after a space), yet every
reported location lies on line 0: the occurrence starts at byte offset
3, and `chars().nth(2)` yields the alphanumeric `'n'` instead of the
space. -/
theorem c5_counterexample :
    wordBoundaryOccurrence ("é nav".data) ("nav".data) 2 = true ∧
    (∃ locs, references [(0, "nav\né nav".data)] 0 ⟨0, 0⟩ =
        some (some locs) ∧
      ¬ locs = [] ∧ ∀ loc ∈ locs, ¬ loc.range.start.line = 1) := by
  refine ⟨by decide, [⟨0, mkRangeU32 0 0 0 3⟩], by decide, by decide,
    by decide⟩

/-- C5 (amended): over tracked documents whose characters are all
single-byte — where the byte offsets fed to the character-indexed
boundary lookups are in range and denote the intended characters — the
reference scan for a non-alias (layer) search word reports an
occurrence location if and only if the bare name occurs at that
position of a tracked document's line as a substring with word
boundaries on both sides, a boundary being the start/end of the line
or an adjacent character that is not alphanumeric
(`wordBoundaryOccurrence`, written from the specification). -/
theorem c5_layer_reference_boundaries
    (ws : List (Nat × List Char)) (uri : Nat) (pos : Pos)
    (text word : List Char)
    (hws : ∀ p ∈ ws, asciiStr p.2)
    (hr : wsRead ws uri = some text)
    (hw : get_word_at_position text pos = some word)
    (hne : ¬ word = [])
    (hna : ¬ word.head? = some '@') :
    ∀ loc : Location,
      (∃ locs, references ws uri pos = some (some locs) ∧ loc ∈ locs) ↔
      (∃ p ∈ ws, loc.uri = p.1 ∧
        ∃ i ∈ List.range (rustLines p.2).length,
          ∃ c ∈ List.range ((rustLines p.2).getD i []).length,
            wordBoundaryOccurrence ((rustLines p.2).getD i []) word c = true ∧
              loc = ⟨p.1, mkRangeU32 i c i (c + word.length)⟩) := by
  intro loc
  have hword : asciiStr word := by
    obtain ⟨p, hp, hpt⟩ := wsRead_mem ws uri text hr
    exact get_word_ascii text pos word (hpt ▸ hws p hp) hw
  have hrw := references_layer_eq ws uri pos text word hws hword hr hw hne hna
  have hmem : loc ∈ ws.flatMap (fun p => layerDocLocations p.1 p.2 word) ↔
      (∃ p ∈ ws, loc.uri = p.1 ∧
        ∃ i ∈ List.range (rustLines p.2).length,
          ∃ c ∈ List.range ((rustLines p.2).getD i []).length,
            wordBoundaryOccurrence ((rustLines p.2).getD i []) word c = true ∧
              loc = ⟨p.1, mkRangeU32 i c i (c + word.length)⟩) := by
    rw [List.mem_flatMap]
    constructor
    · rintro ⟨p, hp, hloc⟩
      rw [mem_docLocations_layer] at hloc
      obtain ⟨i, a, hget, c, hcb, heq⟩ := hloc
      have hil : i < (rustLines p.2).length := (List.get?_eq_some.mp hget).1
      have hgd : (rustLines p.2).getD i [] = a := by
        unfold List.getD
        rw [hget]
        rfl
      refine ⟨p, hp, by rw [heq], i, List.mem_range.mpr hil, c, ?_, ?_, heq⟩
      · rw [hgd]
        exact List.mem_range.mpr (List.mem_range.mp hcb.1)
      · rw [hgd]
        exact (layerMatch_iff_boundary a word c).mp hcb
    · rintro ⟨p, hp, hu, i, hi, c, hc, hb, heq⟩
      refine ⟨p, hp, ?_⟩
      rw [mem_docLocations_layer]
      have hil : i < (rustLines p.2).length := List.mem_range.mp hi
      obtain ⟨a, hget⟩ : ∃ a, (rustLines p.2).get? i = some a := by
        cases hq : (rustLines p.2).get? i with
        | none => exact absurd (List.get?_eq_none.mp hq) (by omega)
        | some a => exact ⟨a, rfl⟩
      have hgd : (rustLines p.2).getD i [] = a := by
        unfold List.getD
        rw [hget]
        rfl
      rw [hgd] at hb
      exact ⟨i, a, hget, c, (layerMatch_iff_boundary a word c).mpr hb, heq⟩
  constructor
  · rintro ⟨locs, hrefs, hloc⟩
    rw [hrw] at hrefs
    by_cases hempty : ws.flatMap (fun p => layerDocLocations p.1 p.2 word) = []
    · rw [if_pos hempty] at hrefs
      exact absurd hrefs (by simp)
    · rw [if_neg hempty] at hrefs
      have : locs = ws.flatMap (fun p => layerDocLocations p.1 p.2 word) :=
        (Option.some.inj (Option.some.inj hrefs)).symm
      rw [this] at hloc
      exact hmem.mp hloc
  · intro hrhs
    have hloc := hmem.mpr hrhs
    refine ⟨ws.flatMap (fun p => layerDocLocations p.1 p.2 word), ?_, hloc⟩
    rw [hrw, if_neg (List.ne_nil_of_mem hloc)]

/-- C5 witness: searching for the layer word `nav` in the all-ASCII
document `"(deflayer nav navigate)"` reports the bare `nav` token at
columns 10-13 and does not report the `nav` prefix of `navigate` at
column 14. -/
theorem c5_witness :
    (∃ locs, references [(0, "(deflayer nav navigate)".data)] 0 ⟨0, 10⟩ =
        some (some locs) ∧
      (⟨0, mkRangeU32 0 10 0 (10 + ("nav".data).length)⟩ : Location) ∈ locs) ∧
    ¬ (∃ locs, references [(0, "(deflayer nav navigate)".data)] 0 ⟨0, 10⟩ =
        some (some locs) ∧
      (⟨0, mkRangeU32 0 14 0 (14 + ("nav".data).length)⟩ : Location) ∈ locs) := by
  constructor
  · refine (c5_layer_reference_boundaries
      [(0, "(deflayer nav navigate)".data)] 0 ⟨0, 10⟩
      ("(deflayer nav navigate)".data) ("nav".data)
      (by decide) (by decide) (by decide) (by decide) (by decide) _).mpr ?_
    decide
  · intro h
    have := (c5_layer_reference_boundaries
      [(0, "(deflayer nav navigate)".data)] 0 ⟨0, 10⟩
      ("(deflayer nav navigate)".data) ("nav".data)
      (by decide) (by decide) (by decide) (by decide) (by decide) _).mp h
    revert this
    decide

/-! ## Claim C4 -/

theorem isPrefixOf_ne_nil {pat x : List Char} (hpat : ¬ pat = [])
    (h : pat.isPrefixOf x = true) : ¬ x = [] := by
  intro hx
  subst hx
  cases pat with
  | nil => exact hpat rfl
  | cons a as => simp [List.isPrefixOf] at h

theorem findSub_some_spec (pat : List Char) :
    ∀ (s : List Char) (p : Nat), findSub pat s = some p →
    pat.isPrefixOf (s.drop p) = true ∧
      ∀ q, q < p → pat.isPrefixOf (s.drop q) = false := by
  intro s
  induction s with
  | nil =>
    intro p h
    simp only [findSub] at h
    by_cases hp : pat.isPrefixOf ([] : List Char) = true
    · rw [if_pos hp] at h
      injection h with h2
      subst h2
      exact ⟨hp, fun q hq => absurd hq (by omega)⟩
    · rw [if_neg hp] at h
      exact absurd h (by simp)
  | cons c cs ih =>
    intro p h
    simp only [findSub] at h
    by_cases hp : pat.isPrefixOf (c :: cs) = true
    · rw [if_pos hp] at h
      injection h with h2
      subst h2
      exact ⟨hp, fun q hq => absurd hq (by omega)⟩
    · rw [if_neg hp] at h
      cases hf : findSub pat cs with
      | none =>
        rw [hf] at h
        exact absurd h (by simp)
      | some p2 =>
        rw [hf] at h
        simp only [Option.map_some', Option.some.injEq] at h
        subst h
        obtain ⟨ha, hb⟩ := ih p2 hf
        constructor
        · show pat.isPrefixOf (cs.drop p2) = true
          exact ha
        · intro q hq
          cases q with
          | zero =>
            simp only [List.drop_zero]
            cases hx : pat.isPrefixOf (c :: cs)
            · rfl
            · exact absurd hx hp
          | succ q2 =>
            show pat.isPrefixOf (cs.drop q2) = false
            exact hb q2 (by omega)

theorem findSub_none_spec (pat : List Char) :
    ∀ (s : List Char), findSub pat s = none →
    ∀ q, pat.isPrefixOf (s.drop q) = false := by
  intro s
  induction s with
  | nil =>
    intro h q
    simp only [findSub] at h
    by_cases hp : pat.isPrefixOf ([] : List Char) = true
    · rw [if_pos hp] at h
      exact absurd h (by simp)
    · rw [if_neg hp] at h
      simp only [List.drop_nil]
      cases hx : pat.isPrefixOf ([] : List Char)
      · rfl
      · exact absurd hx hp
  | cons c cs ih =>
    intro h q
    simp only [findSub] at h
    by_cases hp : pat.isPrefixOf (c :: cs) = true
    · rw [if_pos hp] at h
      exact absurd h (by simp)
    · rw [if_neg hp] at h
      cases hf : findSub pat cs with
      | some p2 =>
        rw [hf] at h
        exact absurd h (by simp)
      | none =>
        cases q with
        | zero =>
          simp only [List.drop_zero]
          cases hx : pat.isPrefixOf (c :: cs)
          · rfl
          · exact absurd hx hp
        | succ q2 =>
          show pat.isPrefixOf (cs.drop q2) = false
          exact ih hf q2

theorem occPosFrom_nil_of_none (pat : List Char) :
    ∀ (suffix : List Char) (base : Nat),
    (∀ q, pat.isPrefixOf (suffix.drop q) = false) →
    occPosFrom pat suffix base = [] := by
  intro suffix
  induction suffix with
  | nil =>
    intro base h
    simp only [occPosFrom]
    rw [if_neg (by
      intro hcontra
      have h0 := h 0
      simp only [List.drop_nil] at h0
      rw [h0] at hcontra
      exact Bool.noConfusion hcontra)]
  | cons c cs ih =>
    intro base h
    simp only [occPosFrom]
    rw [if_neg (by
      intro hcontra
      have h0 := h 0
      simp only [List.drop_zero] at h0
      rw [h0] at hcontra
      exact Bool.noConfusion hcontra)]
    simp only [List.nil_append]
    refine ih (base + 1) (fun q => ?_)
    show pat.isPrefixOf (cs.drop q) = false
    exact h (q + 1)

theorem occPosFrom_step (pat : List Char) (hpat : ¬ pat = []) :
    ∀ (p : Nat) (suffix : List Char) (base : Nat),
    pat.isPrefixOf (suffix.drop p) = true →
    (∀ q, q < p → pat.isPrefixOf (suffix.drop q) = false) →
    occPosFrom pat suffix base =
      (base + p) :: occPosFrom pat (suffix.drop (p + 1)) (base + p + 1) := by
  intro p
  induction p with
  | zero =>
    intro suffix base hpre _
    cases suffix with
    | nil =>
      simp only [List.drop_nil] at hpre
      exact absurd rfl (isPrefixOf_ne_nil hpat hpre)
    | cons c cs =>
      simp only [List.drop_zero] at hpre
      simp only [occPosFrom]
      rw [if_pos hpre]
      simp only [List.singleton_append]
      rfl
  | succ p2 ih =>
    intro suffix base hpre hmin
    cases suffix with
    | nil =>
      simp only [List.drop_nil] at hpre
      exact absurd rfl (isPrefixOf_ne_nil hpat hpre)
    | cons c cs =>
      have h0 := hmin 0 (by omega)
      simp only [List.drop_zero] at h0
      simp only [occPosFrom]
      rw [if_neg (by simp [h0])]
      simp only [List.nil_append]
      rw [ih cs (base + 1) (by
          show pat.isPrefixOf (cs.drop p2) = true
          exact hpre)
        (fun q hq => by
          show pat.isPrefixOf (cs.drop q) = false
          exact hmin (q + 1) (by omega))]
      have e1 : base + 1 + p2 = base + (p2 + 1) := by omega
      rw [e1]
      rfl

theorem aliasScanGo_eq_occPos (line pat : List Char) (hpat : ¬ pat = []) :
    ∀ (fuel start : Nat), line.length - start < fuel →
    aliasScanGo line pat fuel start = occPosFrom pat (line.drop start) start := by
  intro fuel
  induction fuel with
  | zero =>
    intro start h
    exact absurd h (by omega)
  | succ f ih =>
    intro start h
    simp only [aliasScanGo]
    cases hf : findSub pat (line.drop start) with
    | none =>
      simp only [hf]
      rw [occPosFrom_nil_of_none pat _ _ (findSub_none_spec pat _ hf)]
    | some p =>
      obtain ⟨ha, hb⟩ := findSub_some_spec pat _ p hf
      simp only [hf]
      rw [occPosFrom_step pat hpat p (line.drop start) start ha hb]
      have hne : ¬ (line.drop start).drop p = [] :=
        isPrefixOf_ne_nil hpat ha
      have hlb : start + p < line.length := by
        have h1 : ((line.drop start).drop p).length =
            line.length - start - p := by
          simp only [List.length_drop]
        by_contra hc
        have h2 : ((line.drop start).drop p).length = 0 := by omega
        exact hne (List.eq_nil_of_length_eq_zero h2)
      congr 1
      rw [List.drop_drop]
      have e1 : start + (p + 1) = start + p + 1 := by omega
      rw [e1]
      exact ih (start + p + 1) (by omega)

theorem aliasScanLine_eq (line pat : List Char) (hpat : ¬ pat = []) :
    aliasScanLine line pat = occPosFrom pat line 0 := by
  unfold aliasScanLine
  rw [aliasScanGo_eq_occPos line pat hpat (line.length + 1) 0 (by omega)]
  simp

theorem length_flatMap {α β : Type} (l : List α) (f : α → List β) :
    (l.flatMap f).length = (l.map (fun a => (f a).length)).sum := by
  induction l with
  | nil => rfl
  | cons a as ih =>
    simp only [List.flatMap_cons, List.length_append, List.map_cons,
      List.sum_cons, ih]

theorem enumFrom_map {α β : Type} (g : α → β) :
    ∀ (L : List α) (j : Nat),
    (enumFrom j L).map (fun p => g p.2) = L.map g := by
  intro L
  induction L with
  | nil => intro j; rfl
  | cons x xs ih =>
    intro j
    simp only [enumFrom, List.map_cons]
    rw [ih (j + 1)]

theorem docLocations_alias_length (u : Nat) (text sw : List Char) :
    (aliasDocLocations u text sw).length =
      doc_occurrence_count ('@' :: sw) text := by
  unfold aliasDocLocations doc_occurrence_count
  rw [length_flatMap]
  have hfun : (fun q : Nat × List Char =>
      (aliasLineLocations u q.1 q.2 sw).length) =
      (fun q : Nat × List Char => (occPosFrom ('@' :: sw) q.2 0).length) := by
    funext q
    simp only [aliasLineLocations, List.length_map]
    rw [aliasScanLine_eq q.2 ('@' :: sw) (by simp)]
  rw [hfun, enumFrom_map (fun l => (occPosFrom ('@' :: sw) l 0).length)
    (rustLines text) 0]

theorem docLocations_uri (u : Nat) (text sw : List Char) :
    ∀ loc ∈ aliasDocLocations u text sw, loc.uri = u := by
  intro loc hloc
  unfold aliasDocLocations at hloc
  rw [List.mem_flatMap] at hloc
  obtain ⟨q, _, hl⟩ := hloc
  unfold aliasLineLocations at hl
  rw [List.mem_map] at hl
  obtain ⟨c, _, heq⟩ := hl
  rw [← heq]

theorem groupInsert_head (u : Nat) (es : List TextEdit)
    (rest : List (Nat × List TextEdit)) (e : TextEdit) :
    groupInsert ((u, es) :: rest) u e = (u, es ++ [e]) :: rest := by
  simp [groupInsert]

theorem groupInsert_skip (k u : Nat) (hne : ¬ k = u) (es : List TextEdit)
    (rest : List (Nat × List TextEdit)) (e : TextEdit) :
    groupInsert ((k, es) :: rest) u e = (k, es) :: groupInsert rest u e := by
  simp [groupInsert, hne]

theorem groupFold_one (f : Location → TextEdit) (u : Nat) :
    ∀ (locs : List Location), (∀ l ∈ locs, l.uri = u) →
    ∀ (es : List TextEdit),
    locs.foldl (fun m loc => groupInsert m loc.uri (f loc)) [(u, es)] =
      [(u, es ++ locs.map f)] := by
  intro locs
  induction locs with
  | nil => intro _ es; simp
  | cons l ls ih =>
    intro h es
    simp only [List.foldl_cons]
    rw [h l (List.mem_cons_self l ls), groupInsert_head]
    rw [ih (fun x hx => h x (List.mem_cons_of_mem l hx)) (es ++ [f l])]
    simp

theorem groupFold_two (f : Location → TextEdit) (u1 u2 : Nat)
    (hne : ¬ u2 = u1) :
    ∀ (locs : List Location), (∀ l ∈ locs, l.uri = u2) →
    ∀ (es1 es2 : List TextEdit),
    locs.foldl (fun m loc => groupInsert m loc.uri (f loc))
        [(u1, es1), (u2, es2)] =
      [(u1, es1), (u2, es2 ++ locs.map f)] := by
  intro locs
  induction locs with
  | nil => intro _ es1 es2; simp
  | cons l ls ih =>
    intro h es1 es2
    simp only [List.foldl_cons]
    rw [h l (List.mem_cons_self l ls), groupInsert_skip u1 u2 (by omega),
      groupInsert_head]
    rw [ih (fun x hx => h x (List.mem_cons_of_mem l hx)) es1 (es2 ++ [f l])]
    simp

theorem groupFold_split (f : Location → TextEdit) (u1 u2 : Nat)
    (hne : ¬ u1 = u2) (locs1 locs2 : List Location)
    (h1 : ∀ l ∈ locs1, l.uri = u1) (h2 : ∀ l ∈ locs2, l.uri = u2)
    (hn1 : ¬ locs1 = []) (hn2 : ¬ locs2 = []) :
    (locs1 ++ locs2).foldl (fun m loc => groupInsert m loc.uri (f loc)) [] =
      [(u1, locs1.map f), (u2, locs2.map f)] := by
  rw [List.foldl_append]
  cases locs1 with
  | nil => exact absurd rfl hn1
  | cons a as =>
    simp only [List.foldl_cons]
    have ha := h1 a (List.mem_cons_self a as)
    rw [ha]
    show (locs2.foldl _ (as.foldl _ (groupInsert [] u1 (f a))))  = _
    have hgi : groupInsert [] u1 (f a) = [(u1, [f a])] := rfl
    rw [hgi, groupFold_one f u1 as
      (fun x hx => h1 x (List.mem_cons_of_mem a hx)) [f a]]
    cases locs2 with
    | nil => exact absurd rfl hn2
    | cons b bs =>
      simp only [List.foldl_cons]
      have hb := h2 b (List.mem_cons_self b bs)
      rw [hb, groupInsert_skip u1 u2 (by omega)]
      have hgi2 : groupInsert [] u2 (f b) = [(u2, [f b])] := rfl
      rw [hgi2, groupFold_two f u1 u2 (by omega) bs
        (fun x hx => h2 x (List.mem_cons_of_mem b hx)) ([f a] ++ as.map f)
        [f b]]
      simp

theorem groupInsert_preserve (P : TextEdit → Prop) :
    ∀ (m : List (Nat × List TextEdit)) (u : Nat) (x : TextEdit),
    (∀ e ∈ m, ∀ t ∈ e.2, P t) → P x →
    ∀ e ∈ groupInsert m u x, ∀ t ∈ e.2, P t := by
  intro m
  induction m with
  | nil =>
    intro u x _ hx e he t ht
    simp only [groupInsert, List.mem_singleton] at he
    subst he
    simp only [List.mem_singleton] at ht
    rw [ht]
    exact hx
  | cons p rest ih =>
    intro u x hm hx e he t ht
    obtain ⟨k, es⟩ := p
    by_cases hk : k = u
    · subst hk
      rw [groupInsert_head] at he
      rcases List.mem_cons.mp he with rfl | he2
      · rcases List.mem_append.mp ht with ht1 | ht2
        · exact hm (k, es) (List.mem_cons_self _ _) t ht1
        · simp only [List.mem_singleton] at ht2
          rw [ht2]
          exact hx
      · exact hm e (List.mem_cons_of_mem _ he2) t ht
    · rw [groupInsert_skip k u hk] at he
      rcases List.mem_cons.mp he with rfl | he2
      · exact hm (k, es) (List.mem_cons_self _ _) t ht
      · exact ih u x (fun a ha => hm a (List.mem_cons_of_mem _ ha)) hx e
          he2 t ht

theorem groupFold_preserve (f : Location → TextEdit) (P : TextEdit → Prop)
    (hf : ∀ loc, P (f loc)) :
    ∀ (locs : List Location) (m : List (Nat × List TextEdit)),
    (∀ e ∈ m, ∀ t ∈ e.2, P t) →
    ∀ e ∈ locs.foldl (fun m loc => groupInsert m loc.uri (f loc)) m,
      ∀ t ∈ e.2, P t := by
  intro locs
  induction locs with
  | nil => intro m hm; exact hm
  | cons l ls ih =>
    intro m hm
    simp only [List.foldl_cons]
    exact ih (groupInsert m l.uri (f l))
      (groupInsert_preserve P m l.uri (f l) hm (hf l))

theorem references_alias_eq (ws : List (Nat × List Char)) (uri : Nat)
    (pos : Pos) (text sw : List Char)
    (hr : wsRead ws uri = some text)
    (hw : get_word_at_position text pos = some ('@' :: sw)) :
    references ws uri pos =
      (if ws.flatMap (fun p => aliasDocLocations p.1 p.2 sw) = [] then
        some none
      else
        some (some (ws.flatMap (fun p => aliasDocLocations p.1 p.2 sw)))) := by
  simp only [references, hr, hw]
  rw [if_neg (by simp)]
  simp only [List.head?_cons, List.drop_succ_cons, List.drop_zero, if_true]
  rw [flatMapO_eq_some (fun p => docLocations p.1 p.2 sw true)
    (fun p => aliasDocLocations p.1 p.2 sw) ws
    (fun p _ => docLocations_alias_some p.1 p.2 sw)]

theorem rename_eq_of_refs (ws : List (Nat × List Char)) (uri : Nat)
    (pos : Pos) (text word newName : List Char) (locs : List Location)
    (hr : wsRead ws uri = some text)
    (hw : get_word_at_position text pos = some word)
    (hne : ¬ word = [])
    (hrefs : references ws uri pos = some (some locs)) :
    rename ws uri pos newName =
      some (some ⟨locs.foldl
        (fun m loc => groupInsert m loc.uri
          ⟨loc.range,
           if word.head? = some '@' then '@' :: newName else newName⟩)
        []⟩) := by
  simp only [rename, hr, hw, hrefs]
  rw [if_neg hne]

/-- C4: (A) for two distinct tracked documents in which the alias
reference `@sw` occurs `n1 ≥ 1` and `n2 ≥ 1` times with `n1 + n2 = 3`
(occurrence = substring position, `doc_occurrence_count`), rename to
`newName` produces a workspace edit whose per-document groups are
exactly the two documents, containing 3 text edits in total, each with
replacement text `@newName`; (B) for a non-alias (layer) token every
produced edit's replacement text is `newName` verbatim. -/
theorem c4_rename_alias_edits :
    (∀ (u1 u2 : Nat) (d1 d2 : List Char) (pos : Pos)
       (sw newName : List Char) (n1 n2 : Nat),
      ¬ u1 = u2 →
      get_word_at_position d1 pos = some ('@' :: sw) →
      doc_occurrence_count ('@' :: sw) d1 = n1 →
      doc_occurrence_count ('@' :: sw) d2 = n2 →
      1 ≤ n1 → 1 ≤ n2 → n1 + n2 = 3 →
      ∃ es1 es2, rename [(u1, d1), (u2, d2)] u1 pos newName =
          some (some ⟨[(u1, es1), (u2, es2)]⟩) ∧
        es1.length + es2.length = 3 ∧
        (∀ e ∈ es1, e.newText = '@' :: newName) ∧
        (∀ e ∈ es2, e.newText = '@' :: newName)) ∧
    (∀ (ws : List (Nat × List Char)) (uri : Nat) (pos : Pos)
       (text word newName : List Char) (we : WorkspaceEdit),
      wsRead ws uri = some text →
      get_word_at_position text pos = some word →
      ¬ word = [] → ¬ word.head? = some '@' →
      rename ws uri pos newName = some (some we) →
      ∀ e ∈ we.changes, ∀ t ∈ e.2, t.newText = newName) := by
  constructor
  · intro u1 u2 d1 d2 pos sw newName n1 n2 hne hw hc1 hc2 hn1 hn2 hsum
    have hr : wsRead [(u1, d1), (u2, d2)] u1 = some d1 := by
      simp [wsRead]
    have hflat : ([(u1, d1), (u2, d2)] : List (Nat × List Char)).flatMap
        (fun p => aliasDocLocations p.1 p.2 sw) =
        aliasDocLocations u1 d1 sw ++ aliasDocLocations u2 d2 sw := by
      simp
    have hlen1 : (aliasDocLocations u1 d1 sw).length = n1 := by
      rw [docLocations_alias_length]
      exact hc1
    have hlen2 : (aliasDocLocations u2 d2 sw).length = n2 := by
      rw [docLocations_alias_length]
      exact hc2
    have hL1ne : ¬ aliasDocLocations u1 d1 sw = [] := by
      intro hnil
      rw [hnil] at hlen1
      simp at hlen1
      omega
    have hL2ne : ¬ aliasDocLocations u2 d2 sw = [] := by
      intro hnil
      rw [hnil] at hlen2
      simp at hlen2
      omega
    have hlocsne : ¬ aliasDocLocations u1 d1 sw ++
        aliasDocLocations u2 d2 sw = [] := by
      intro h
      rcases List.append_eq_nil.mp h with ⟨h1, _⟩
      exact hL1ne h1
    have hrefs := references_alias_eq [(u1, d1), (u2, d2)] u1 pos d1 sw hr hw
    rw [hflat, if_neg hlocsne] at hrefs
    have hrn := rename_eq_of_refs [(u1, d1), (u2, d2)] u1 pos d1
      ('@' :: sw) newName
      (aliasDocLocations u1 d1 sw ++ aliasDocLocations u2 d2 sw)
      hr hw (by simp) hrefs
    have hcond : (('@' :: sw).head? = some '@') = True := by simp
    simp only [hcond, if_true] at hrn
    rw [groupFold_split (fun loc => ⟨loc.range, '@' :: newName⟩) u1 u2 hne
      (aliasDocLocations u1 d1 sw) (aliasDocLocations u2 d2 sw)
      (docLocations_uri u1 d1 sw) (docLocations_uri u2 d2 sw)
      hL1ne hL2ne] at hrn
    refine ⟨(aliasDocLocations u1 d1 sw).map (fun loc => ⟨loc.range, '@' :: newName⟩),
      (aliasDocLocations u2 d2 sw).map (fun loc => ⟨loc.range, '@' :: newName⟩),
      hrn, ?_, ?_, ?_⟩
    · simp only [List.length_map]
      omega
    · intro e he
      rw [List.mem_map] at he
      obtain ⟨loc, _, heq⟩ := he
      rw [← heq]
    · intro e he
      rw [List.mem_map] at he
      obtain ⟨loc, _, heq⟩ := he
      rw [← heq]
  · intro ws uri pos text word newName we hr hw hne hna hrn
    cases href : references ws uri pos with
    | none =>
      have hz : rename ws uri pos newName = none := by
        simp only [rename, hr, hw]
        rw [if_neg hne, href]
      rw [hz] at hrn
      exact absurd hrn (by simp)
    | some o =>
      cases o with
      | none =>
        have hz : rename ws uri pos newName = some none := by
          simp only [rename, hr, hw]
          rw [if_neg hne, href]
        rw [hz] at hrn
        exact absurd (Option.some.inj hrn) (by simp)
      | some locs =>
        have heq := rename_eq_of_refs ws uri pos text word newName locs
          hr hw hne href
        rw [heq] at hrn
        have hfeq : locs.foldl (fun m loc => groupInsert m loc.uri
            ⟨loc.range,
             if word.head? = some '@' then '@' :: newName else newName⟩) [] =
            locs.foldl (fun m loc => groupInsert m loc.uri
              ⟨loc.range, newName⟩) [] := by
          have hcond : (word.head? = some '@') = False := eq_false hna
          simp only [hcond, if_false]
        have hwe : we.changes = locs.foldl (fun m loc => groupInsert m loc.uri
            ⟨loc.range, newName⟩) [] := by
          have h2 := Option.some.inj (Option.some.inj hrn)
          rw [← h2, ← hfeq]
        intro e he t ht
        rw [hwe] at he
        exact groupFold_preserve (fun loc => ⟨loc.range, newName⟩)
          (fun t => t.newText = newName) (fun loc => rfl) locs []
          (fun e' he' => absurd he' (List.not_mem_nil e')) e he t ht

/-- C4 witness: renaming `@a` to `b` across two tracked documents with
2 + 1 occurrences yields both document groups and 3 edits of `@b`; a
layer rename of `nav` to `m` yields edits with `m` verbatim. -/
theorem c4_witness :
    (∃ es1 es2,
      rename [(0, "x @a y\n@a".data), (1, "@a z".data)] 0 ⟨0, 3⟩ ("b".data) =
          some (some ⟨[(0, es1), (1, es2)]⟩) ∧
        es1.length + es2.length = 3 ∧
        (∀ e ∈ es1, e.newText = '@' :: ("b".data)) ∧
        (∀ e ∈ es2, e.newText = '@' :: ("b".data))) ∧
    (∀ e ∈ (⟨[(0, [⟨mkRangeU32 0 10 0 13, "m".data⟩,
                   ⟨mkRangeU32 1 0 1 3, "m".data⟩])]⟩ :
        WorkspaceEdit).changes, ∀ t ∈ e.2, t.newText = "m".data) :=
  ⟨c4_rename_alias_edits.1 0 1 ("x @a y\n@a".data) ("@a z".data) ⟨0, 3⟩
      ("a".data) ("b".data) 2 1 (by decide) (by decide) (by decide)
      (by decide) (by decide) (by decide) (by decide),
   c4_rename_alias_edits.2 [(0, "(deflayer nav)\nnav".data)] 0 ⟨1, 1⟩
      ("(deflayer nav)\nnav".data) ("nav".data) ("m".data)
      ⟨[(0, [⟨mkRangeU32 0 10 0 13, "m".data⟩,
             ⟨mkRangeU32 1 0 1 3, "m".data⟩])]⟩
      (by decide) (by decide) (by decide) (by decide) (by decide)⟩
